import Mathlib

/-!
Verification of the time-versioned key-value store in kv/cache.py.

The Python class Cache keeps two parallel defaultdicts, _ts : key -> list of int
and _vals : key -> list of value, with the same key set on every code path
(every operation materializes or consults both together).  We model the pair of
dicts as one insertion-ordered association list from keys to pairs of parallel
lists, which reproduces Python dict ordering: updating an existing key keeps its
position, and a newly materialized key is appended at the end.

Python bisect.bisect_right (resp. bisect_left) on a sorted list returns the
index of the first element strictly greater than (resp. greater than or equal
to) the probe; on a sorted list this is the length of the longest prefix of
elements <= (resp. <) the probe, which is how we define it.
-/

namespace KVCache

/-- Index of the first element greater than x, on a sorted list
(bisect.bisect_right). -/
def bisect_right (a : List Int) (x : Int) : Nat :=
  (a.takeWhile (fun t => decide (t ≤ x))).length

/-- Index of the first element not less than x, on a sorted list
(bisect.bisect_left). -/
def bisect_left (a : List Int) (x : Int) : Nat :=
  (a.takeWhile (fun t => decide (t < x))).length

/-- Per-key history: the parallel arrays self._ts[key] and self._vals[key]. -/
abbrev Hist (V : Type) := List Int × List V

/-- Lookup in an insertion-ordered association list (dict.get(key)). -/
def lookupKey {β : Type} : List (String × β) → String → Option β
  | [], _ => none
  | (k', b) :: rest, k => if k' = k then some b else lookupKey rest k

/-- Dict write d[key] = b: overwrite in place if present, else append at the
end (Python dicts preserve insertion order). -/
def setKey {β : Type} : List (String × β) → String → β → List (String × β)
  | [], k, b => [(k, b)]
  | (k', b') :: rest, k, b =>
    if k' = k then (k, b) :: rest else (k', b') :: setKey rest k b

/-- The state of the Python Cache object: both defaultdicts jointly. -/
structure Cache (V : Type) where
  entries : List (String × Hist V)
deriving DecidableEq

/-- Cache(): both dicts start empty. -/
def Cache.emptyCache {V : Type} : Cache V := ⟨[]⟩

/-- Body of Cache.insert acting on one key history (ts_arr, val_arr).
Fast append path when the history is empty or timestamp >= last timestamp
(overwriting the last value when equal); otherwise an out-of-order insert at
the bisect_right position, overwriting in place when the timestamp exists. -/
def insertHist {V : Type} (timestamp : Int) (value : V) (ts : List Int) (vs : List V) :
    Hist V :=
  match ts.getLast? with
  | none => (ts ++ [timestamp], vs ++ [value])
  | some last =>
    if last ≤ timestamp then
      if timestamp = last then (ts, vs.set (vs.length - 1) value)
      else (ts ++ [timestamp], vs ++ [value])
    else
      let i := bisect_right ts timestamp
      if 0 < i ∧ ts.getD (i - 1) 0 = timestamp then
        (ts, vs.set (i - 1) value)
      else
        (ts.take i ++ timestamp :: ts.drop i, vs.take i ++ value :: vs.drop i)

/-- Cache.insert: defaultdict access materializes ([], []) for an absent key,
then the history is updated in place. -/
def Cache.insert {V : Type} (c : Cache V) (timestamp : Int) (key : String) (value : V) :
    Cache V :=
  let h := (lookupKey c.entries key).getD ([], [])
  ⟨setKey c.entries key (insertHist timestamp value h.1 h.2)⟩

/-- One step of the bucket-building loop of Cache.insert_many:
buckets[k].append((ts, v)) on a defaultdict(list). -/
def bucketAdd {V : Type} :
    List (String × List (Int × V)) → String → Int × V → List (String × List (Int × V))
  | [], k, p => [(k, [p])]
  | (k', xs) :: rest, k, p =>
    if k' = k then (k', xs ++ [p]) :: rest else (k', xs) :: bucketAdd rest k p

/-- The buckets dict of Cache.insert_many, in key first-appearance order. -/
def buckets {V : Type} (es : List (Int × String × V)) : List (String × List (Int × V)) :=
  es.foldl (fun bs e => bucketAdd bs e.2.1 (e.1, e.2.2)) []

/-- items.sort(key=lambda x: x[0]): stable ascending sort by timestamp.
List.insertionSort with this relation is stable: entries with equal
timestamps keep their relative input order. -/
def sortByTs {V : Type} (xs : List (Int × V)) : List (Int × V) :=
  List.insertionSort (fun p q => p.1 ≤ q.1) xs

/-- Inner loop of Cache.insert_many for one bucket: materialize the key
(self._ts[k], self._vals[k]), then apply to each (ts, v) the same
append-fast-path / out-of-order logic, which the source duplicates verbatim
from Cache.insert and we share as insertHist. -/
def applyBucket {V : Type} (c : Cache V) (k : String) (items : List (Int × V)) : Cache V :=
  let h := (lookupKey c.entries k).getD ([], [])
  ⟨setKey c.entries k (items.foldl (fun a p => insertHist p.1 p.2 a.1 a.2) h)⟩

/-- Cache.insert_many: group entries by key in first-appearance order, sort
each group by timestamp (stable), then apply each group. -/
def Cache.insert_many {V : Type} (c : Cache V) (es : List (Int × String × V)) : Cache V :=
  (buckets es).foldl (fun c kb => applyBucket c kb.1 (sortByTs kb.2)) c

/-- Cache.get: self._ts.get(key) (no materialization); absent or empty
history gives None; otherwise index bisect_right(ts, timestamp) - 1, None if
negative, else the parallel value.  The in-range index access
self._vals[key][i] is modeled by an optional lookup. -/
def Cache.get {V : Type} (c : Cache V) (timestamp : Int) (key : String) : Option V :=
  match lookupKey c.entries key with
  | none => none
  | some h =>
    if h.1 = [] then none
    else if bisect_right h.1 timestamp = 0 then none
    else h.2.get? (bisect_right h.1 timestamp - 1)

/-- Cache.latest: last stored value, None when absent or empty.  The access
self._vals[key][-1] is modeled by getLast?. -/
def Cache.latest {V : Type} (c : Cache V) (key : String) : Option V :=
  match lookupKey c.entries key with
  | none => none
  | some h => if h.1 = [] then none else h.2.getLast?

/-- Cache.get_range: empty on an inverted range or an absent/empty key, else
the slice of index-aligned (ts, value) pairs from bisect_left(start_ts) up to
bisect_right(end_ts).  The aligned pairs (ts_arr[i], vals[i]) are the zip of
the parallel arrays. -/
def Cache.get_range {V : Type} (c : Cache V) (key : String) (start_ts end_ts : Int) :
    List (Int × V) :=
  if end_ts < start_ts then []
  else
    match lookupKey c.entries key with
    | none => []
    | some h =>
      if h.1 = [] then []
      else ((h.1.zip h.2).take (bisect_right h.1 end_ts)).drop (bisect_left h.1 start_ts)

/-- Cache.delete_upto: returns the removed count and the new state.  Absent
or empty key, or cut == 0, leaves the state untouched and returns 0; else the
prefix of length cut = bisect_right(ts_arr, ts) is deleted from both arrays. -/
def Cache.delete_upto {V : Type} (c : Cache V) (key : String) (ts : Int) : Nat × Cache V :=
  match lookupKey c.entries key with
  | none => (0, c)
  | some h =>
    if h.1 = [] then (0, c)
    else if bisect_right h.1 ts = 0 then (0, c)
    else (bisect_right h.1 ts,
      ⟨setKey c.entries key
        (h.1.drop (bisect_right h.1 ts), h.2.drop (bisect_right h.1 ts))⟩)

/-- The dedup loop of Cache.compact after the first element was kept: prev is
the last retained value; an element is kept exactly when its value differs
from prev.  The source iterates over index range(1, len(ts_arr)) reading both
arrays; the walk stops with the shorter array (the arrays always have equal
length in reachable states). -/
def dedupLoop {V : Type} [DecidableEq V] (prev : V) : List Int → List V → Hist V
  | t :: ts', v :: vs' =>
    if v ≠ prev then
      let r := dedupLoop v ts' vs'
      (t :: r.1, v :: r.2)
    else dedupLoop prev ts' vs'
  | _, _ => ([], [])

/-- The dedup pass of Cache.compact: always keeps the first entry
(new_ts = [ts_arr[0]], new_vals = [val_arr[0]]), then runs the loop.  The
source is only reached with a non-empty ts_arr; the mismatched-length arm is
unreachable there and left as the identity. -/
def dedupHist {V : Type} [DecidableEq V] (ts : List Int) (vs : List V) : Hist V :=
  match ts, vs with
  | t :: ts', v :: vs' =>
    let r := dedupLoop v ts' vs'
    (t :: r.1, v :: r.2)
  | _, _ => (ts, vs)

/-- First pass of Cache.compact (keep only last N versions): when
keep_last_n is given, non-negative and smaller than the version count, both
arrays lose their oldest entries so the keep_last_n most recent remain;
otherwise the pass leaves the history alone. -/
def trimHist {V : Type} (keep_last_n : Option Int) (h : Hist V) : Hist V :=
  match keep_last_n with
  | some n =>
    if 0 ≤ n ∧ n < (h.1.length : Int) then
      (h.1.drop (h.1.length - n.toNat), h.2.drop (h.1.length - n.toNat))
    else h
  | none => h

/-- Second pass of Cache.compact (dedup adjacent identical values), guarded
by the dedup_same_value flag and by the trimmed history being non-empty. -/
def dedupIf {V : Type} [DecidableEq V] (dedup_same_value : Bool) (h : Hist V) : Hist V :=
  if dedup_same_value ∧ h.1 ≠ [] then dedupHist h.1 h.2 else h

/-- Cache.compact: no-op on an absent or empty key; else the keep-last-n
trim pass followed by the adjacent-value dedup pass, both mutating the
stored history in place. -/
def Cache.compact {V : Type} [DecidableEq V] (c : Cache V) (key : String)
    (keep_last_n : Option Int) (dedup_same_value : Bool) : Cache V :=
  match lookupKey c.entries key with
  | none => c
  | some h =>
    if h.1 = [] then c
    else ⟨setKey c.entries key (dedupIf dedup_same_value (trimHist keep_last_n h))⟩

/-- The operations of the store, for stating invariants over arbitrary call
sequences. -/
inductive Op (V : Type) where
  | insert (timestamp : Int) (key : String) (value : V)
  | insert_many (entries : List (Int × String × V))
  | get (timestamp : Int) (key : String)
  | latest (key : String)
  | get_range (key : String) (start_ts end_ts : Int)
  | delete_upto (key : String) (ts : Int)
  | compact (key : String) (keep_last_n : Option Int) (dedup_same_value : Bool)

/-- State after one operation.  The three reads use dict.get and return the
state unchanged; delete_upto returns its count, dropped here. -/
def applyOp {V : Type} [DecidableEq V] (c : Cache V) : Op V → Cache V
  | .insert t k v => c.insert t k v
  | .insert_many es => c.insert_many es
  | .get _ _ => c
  | .latest _ => c
  | .get_range _ _ _ => c
  | .delete_upto k t => (c.delete_upto k t).2
  | .compact k n d => c.compact k n d

/-- State after a sequence of operations. -/
def applyOps {V : Type} [DecidableEq V] (c : Cache V) (ops : List (Op V)) : Cache V :=
  ops.foldl applyOp c

/-- Data-model invariant of one history: strictly increasing timestamps and
index-aligned arrays of equal length. -/
def histInv {V : Type} (h : Hist V) : Prop :=
  h.1.Pairwise (· < ·) ∧ h.1.length = h.2.length

instance {V : Type} (h : Hist V) : Decidable (histInv h) := by
  unfold histInv; infer_instance

/-- Store invariant: each key appears once and every history is well formed. -/
def Inv {V : Type} (c : Cache V) : Prop :=
  (c.entries.map Prod.fst).Nodup ∧ ∀ e ∈ c.entries, histInv e.2

instance {V : Type} [DecidableEq V] (c : Cache V) : Decidable (Inv c) := by
  unfold Inv; infer_instance

/-! Specification-side definitions (written from the spec wording, to be
compared with the code). -/

/-- The value effective at time t in a zipped history: among the stored pairs
with timestamp <= t, the last one (which, with timestamps ascending, carries
the largest stored timestamp <= t); absent when no timestamp qualifies. -/
def effectiveAt {V : Type} (t : Int) (l : List (Int × V)) : Option V :=
  ((l.filter (fun p => decide (p.1 ≤ t))).getLast?).map Prod.snd

/-- Sorted-map insertion into a zipped history: place (t, v) before the first
larger timestamp, overwriting the value in place when t is already present. -/
def insZ {V : Type} (t : Int) (v : V) : List (Int × V) → List (Int × V)
  | [] => [(t, v)]
  | (a, b) :: rest =>
    if t < a then (t, v) :: (a, b) :: rest
    else if t = a then (a, v) :: rest
    else (a, b) :: insZ t v rest

/-- Recursive reading of the value effective at t on a timestamp-ascending
zipped history: none before the first timestamp, else the deepest qualifying
value. -/
def specGetZ {V : Type} (t : Int) : List (Int × V) → Option V
  | [] => none
  | (a, b) :: rest => if t < a then none else some ((specGetZ t rest).getD b)

/-- Spec wording of the retention pass of compact: when a non-negative n
smaller than the version count is given, exactly the n most recent versions
remain; otherwise the pass is skipped. -/
def specTrim {V : Type} (keep_last_n : Option Int) (l : List (Int × V)) : List (Int × V) :=
  match keep_last_n with
  | some n =>
    if 0 ≤ n ∧ n < (l.length : Int) then l.drop (l.length - n.toNat) else l
  | none => l

/-- Spec wording of the dedup loop: drop an entry exactly when its value
equals the immediately preceding retained value. -/
def specDedupLoop {V : Type} [DecidableEq V] (prev : V) : List (Int × V) → List (Int × V)
  | [] => []
  | (a, b) :: rest =>
    if b = prev then specDedupLoop prev rest else (a, b) :: specDedupLoop b rest

/-- Spec wording of the dedup pass of compact: always keep the first entry,
then drop each entry whose value equals the previous retained value. -/
def specDedup {V : Type} [DecidableEq V] : List (Int × V) → List (Int × V)
  | [] => []
  | p :: rest => p :: specDedupLoop p.2 rest

/-- Spec wording of compact on one zipped history: the retention pass first,
the dedup pass (when requested) second. -/
def specCompactZ {V : Type} [DecidableEq V] (keep_last_n : Option Int)
    (dedup_same_value : Bool) (l : List (Int × V)) : List (Int × V) :=
  if dedup_same_value then specDedup (specTrim keep_last_n l)
  else specTrim keep_last_n l

/-- The history stored for a key, with the empty history for an absent key. -/
def histOf {V : Type} (c : Cache V) (k : String) : Hist V :=
  (lookupKey c.entries k).getD ([], [])

/-- The index-aligned (timestamp, value) pairs stored for a key. -/
def histZip {V : Type} (c : Cache V) (k : String) : List (Int × V) :=
  (histOf c k).1.zip (histOf c k).2

/-- The (timestamp, value) pairs of a batch that address one key, in input
order. -/
def keyPairs {V : Type} (es : List (Int × String × V)) (k : String) : List (Int × V) :=
  es.filterMap (fun e => if e.2.1 = k then some (e.1, e.2.2) else none)

/-- The whole batch stably sorted by timestamp (the order "sorted by
timestamp" of the out-of-order equivalence property). -/
def sortAllByTs {V : Type} (es : List (Int × String × V)) : List (Int × String × V) :=
  List.insertionSort (fun e f => e.1 ≤ f.1) es

/-- The keys a sequence of inserts materializes beyond those already seen,
in first-appearance order. -/
def newKeys (seen : List String) : List String → List String
  | [] => []
  | k :: rest => if k ∈ seen then newKeys seen rest else k :: newKeys (k :: seen) rest

/-! Association list lemmas. -/

section Assoc

variable {β : Type}

@[simp]
theorem lookupKey_nil (k : String) : lookupKey ([] : List (String × β)) k = none := rfl

theorem lookupKey_cons (k' : String) (b : β) (rest : List (String × β)) (k : String) :
    lookupKey ((k', b) :: rest) k = if k' = k then some b else lookupKey rest k := rfl

@[simp]
theorem lookupKey_setKey_self (es : List (String × β)) (k : String) (b : β) :
    lookupKey (setKey es k b) k = some b := by
  induction es with
  | nil => simp [setKey, lookupKey]
  | cons e rest ih =>
    obtain ⟨k', b'⟩ := e
    by_cases h : k' = k
    · simp [setKey, h, lookupKey]
    · simp [setKey, h, lookupKey, ih]

theorem lookupKey_setKey_ne (es : List (String × β)) (k k₂ : String) (b : β)
    (h : k ≠ k₂) : lookupKey (setKey es k b) k₂ = lookupKey es k₂ := by
  induction es with
  | nil => simp [setKey, lookupKey, h]
  | cons e rest ih =>
    obtain ⟨k', b'⟩ := e
    by_cases hk : k' = k
    · subst hk; simp [setKey, lookupKey, h, ih]
    · simp only [setKey, if_neg hk, lookupKey]
      by_cases hk2 : k' = k₂ <;> simp [hk2, ih]

theorem lookupKey_eq_none_iff (es : List (String × β)) (k : String) :
    lookupKey es k = none ↔ k ∉ es.map Prod.fst := by
  induction es with
  | nil => simp
  | cons e rest ih =>
    obtain ⟨k', b'⟩ := e
    by_cases h : k' = k
    · simp [lookupKey, h]
    · simp only [lookupKey, if_neg h, ih, List.map_cons, List.mem_cons]
      constructor
      · intro hk hor
        rcases hor with hor | hor
        · exact h hor.symm
        · exact hk hor
      · intro hk
        exact fun hm => hk (Or.inr hm)

theorem mem_of_lookupKey {es : List (String × β)} {k : String} {b : β}
    (h : lookupKey es k = some b) : (k, b) ∈ es := by
  induction es with
  | nil => simp at h
  | cons e rest ih =>
    obtain ⟨k', b'⟩ := e
    by_cases hk : k' = k
    · subst hk
      simp [lookupKey] at h
      subst h; exact List.mem_cons_self _ _
    · simp [lookupKey, hk] at h
      exact List.mem_cons_of_mem _ (ih h)

theorem setKey_eq_of_lookup {es : List (String × β)} {k : String} {b : β}
    (h : lookupKey es k = some b) : setKey es k b = es := by
  induction es with
  | nil => simp at h
  | cons e rest ih =>
    obtain ⟨k', b'⟩ := e
    by_cases hk : k' = k
    · subst hk
      simp [lookupKey] at h
      simp [setKey, h]
    · simp [lookupKey, hk] at h
      simp [setKey, hk, ih h]

theorem map_fst_setKey_mem {es : List (String × β)} {k : String} (b : β)
    (h : k ∈ es.map Prod.fst) : (setKey es k b).map Prod.fst = es.map Prod.fst := by
  induction es with
  | nil => simp at h
  | cons e rest ih =>
    obtain ⟨k', b'⟩ := e
    by_cases hk : k' = k
    · simp [setKey, hk]
    · simp only [List.map_cons, List.mem_cons] at h
      rcases h with h | h
      · exact absurd h.symm hk
      · simp [setKey, hk, ih h]

theorem map_fst_setKey_not_mem {es : List (String × β)} {k : String} (b : β)
    (h : k ∉ es.map Prod.fst) :
    (setKey es k b).map Prod.fst = es.map Prod.fst ++ [k] := by
  induction es with
  | nil => simp [setKey]
  | cons e rest ih =>
    obtain ⟨k', b'⟩ := e
    simp only [List.map_cons, List.mem_cons] at h
    push_neg at h
    simp [setKey, Ne.symm h.1, ih h.2]

theorem mem_setKey {es : List (String × β)} {k : String} {b : β} {e : String × β}
    (h : e ∈ setKey es k b) : e = (k, b) ∨ e ∈ es := by
  induction es with
  | nil => simp [setKey] at h; simp [h]
  | cons f rest ih =>
    obtain ⟨k', b'⟩ := f
    by_cases hk : k' = k
    · simp only [setKey, if_pos hk, List.mem_cons] at h
      rcases h with h | h
      · exact Or.inl h
      · exact Or.inr (List.mem_cons_of_mem _ h)
    · simp only [setKey, if_neg hk, List.mem_cons] at h
      rcases h with h | h
      · exact Or.inr (by simp [h])
      · rcases ih h with h | h
        · exact Or.inl h
        · exact Or.inr (List.mem_cons_of_mem _ h)

theorem assoc_ext {es₁ es₂ : List (String × β)}
    (hfst : es₁.map Prod.fst = es₂.map Prod.fst)
    (hnd : (es₁.map Prod.fst).Nodup)
    (hlook : ∀ k, lookupKey es₁ k = lookupKey es₂ k) : es₁ = es₂ := by
  induction es₁ generalizing es₂ with
  | nil => cases es₂ with
    | nil => rfl
    | cons f rest => simp at hfst
  | cons e rest₁ ih =>
    obtain ⟨k, b⟩ := e
    cases es₂ with
    | nil => simp at hfst
    | cons f rest₂ =>
      obtain ⟨k₂, b₂⟩ := f
      simp only [List.map_cons, List.cons.injEq] at hfst
      obtain ⟨rfl, htl⟩ := hfst
      have hb : b = b₂ := by
        have := hlook k
        simpa [lookupKey] using this
      subst hb
      simp only [List.map_cons, List.nodup_cons] at hnd
      have hlook' : ∀ k', lookupKey rest₁ k' = lookupKey rest₂ k' := by
        intro k'
        by_cases hk : k' = k
        · subst hk
          have h₁ : lookupKey rest₁ k' = none :=
            (lookupKey_eq_none_iff _ _).mpr hnd.1
          have h₂ : lookupKey rest₂ k' = none := by
            rw [lookupKey_eq_none_iff, ← htl]
            exact hnd.1
          rw [h₁, h₂]
        · have := hlook k'
          simpa [lookupKey, Ne.symm hk] using this
      rw [ih htl hnd.2 hlook']

end Assoc

/-! bisect lemmas. -/

@[simp]
theorem bisect_right_nil (x : Int) : bisect_right [] x = 0 := rfl

theorem bisect_right_cons (a : Int) (l : List Int) (x : Int) :
    bisect_right (a :: l) x = if a ≤ x then bisect_right l x + 1 else 0 := by
  by_cases h : a ≤ x <;> simp [bisect_right, List.takeWhile_cons, h]

@[simp]
theorem bisect_left_nil (x : Int) : bisect_left [] x = 0 := rfl

theorem bisect_left_cons (a : Int) (l : List Int) (x : Int) :
    bisect_left (a :: l) x = if a < x then bisect_left l x + 1 else 0 := by
  by_cases h : a < x <;> simp [bisect_left, List.takeWhile_cons, h]

theorem bisect_right_le_length (l : List Int) (x : Int) : bisect_right l x ≤ l.length :=
  (List.takeWhile_sublist _).length_le

/-! Lemmas about the sorted-map insertion insZ. -/

section InsZ

variable {V : Type}

theorem mem_map_fst_insZ {t : Int} {v : V} {l : List (Int × V)} {x : Int}
    (h : x ∈ (insZ t v l).map Prod.fst) : x = t ∨ x ∈ l.map Prod.fst := by
  induction l with
  | nil => simp [insZ] at h; simp [h]
  | cons p rest ih =>
    obtain ⟨a, b⟩ := p
    by_cases h1 : t < a
    · simp only [insZ, if_pos h1, List.map_cons, List.mem_cons] at h
      rcases h with h | h | h
      · exact Or.inl h
      · exact Or.inr (by simp [h])
      · exact Or.inr (by simp [h])
    · by_cases h2 : t = a
      · simp only [insZ, if_neg h1, if_pos h2, List.map_cons, List.mem_cons] at h
        rcases h with h | h
        · exact Or.inl (h.trans h2.symm)
        · exact Or.inr (by simp [h])
      · simp only [insZ, if_neg h1, if_neg h2, List.map_cons, List.mem_cons] at h
        rcases h with h | h
        · exact Or.inr (by simp [h])
        · rcases ih h with h | h
          · exact Or.inl h
          · exact Or.inr (by simp [h])

theorem insZ_pairwise {t : Int} {v : V} {l : List (Int × V)}
    (h : (l.map Prod.fst).Pairwise (· < ·)) :
    ((insZ t v l).map Prod.fst).Pairwise (· < ·) := by
  induction l with
  | nil => simp [insZ]
  | cons p rest ih =>
    obtain ⟨a, b⟩ := p
    simp only [List.map_cons, List.pairwise_cons] at h
    by_cases h1 : t < a
    · simp only [insZ, if_pos h1, List.map_cons]
      refine List.Pairwise.cons ?_ (List.Pairwise.cons h.1 h.2)
      intro x hx
      simp only [List.mem_cons] at hx
      rcases hx with rfl | hx
      · exact h1
      · exact h1.trans (h.1 x hx)
    · by_cases h2 : t = a
      · simp only [insZ, if_neg h1, if_pos h2, List.map_cons]
        exact List.Pairwise.cons h.1 h.2
      · simp only [insZ, if_neg h1, if_neg h2, List.map_cons]
        refine List.Pairwise.cons ?_ (ih h.2)
        intro x hx
        rcases mem_map_fst_insZ hx with rfl | hx
        · omega
        · exact h.1 x hx

theorem insZ_comm {t₁ t₂ : Int} (v₁ v₂ : V) (l : List (Int × V)) (h : t₁ ≠ t₂) :
    insZ t₁ v₁ (insZ t₂ v₂ l) = insZ t₂ v₂ (insZ t₁ v₁ l) := by
  induction l with
  | nil =>
    rcases lt_trichotomy t₁ t₂ with hlt | heq | hgt
    · simp [insZ, hlt, not_lt_of_gt hlt, h, h.symm]
    · exact absurd heq h
    · simp [insZ, hgt, not_lt_of_gt hgt, h, h.symm]
  | cons p rest ih =>
    obtain ⟨a, b⟩ := p
    rcases lt_trichotomy t₁ a with h1 | h1 | h1 <;>
      rcases lt_trichotomy t₂ a with h2 | h2 | h2
    · -- both less than a: order by t₁ vs t₂
      rcases lt_trichotomy t₁ t₂ with hlt | heq | hgt
      · simp only [insZ, if_pos h1, if_pos h2, if_pos hlt,
          if_neg (show ¬ t₂ < t₁ by omega), if_neg (show ¬ t₂ = t₁ by omega)]
      · exact absurd heq h
      · simp only [insZ, if_pos h1, if_pos h2, if_pos hgt,
          if_neg (show ¬ t₁ < t₂ by omega), if_neg (show ¬ t₁ = t₂ by omega)]
    · simp only [insZ, if_pos h1, if_neg (show ¬ t₂ < a by omega), if_pos h2,
        if_neg (show ¬ t₂ < t₁ by omega), if_neg (show ¬ t₂ = t₁ by omega)]
    · simp only [insZ, if_pos h1, if_neg (show ¬ t₂ < a by omega),
        if_neg (show ¬ t₂ = a by omega), if_neg (show ¬ t₂ < t₁ by omega),
        if_neg (show ¬ t₂ = t₁ by omega)]
    · simp only [insZ, if_pos h2, if_neg (show ¬ t₁ < a by omega), if_pos h1,
        if_neg (show ¬ t₁ < t₂ by omega), if_neg (show ¬ t₁ = t₂ by omega)]
    · omega
    · simp only [insZ, if_neg (show ¬ t₂ < a by omega),
        if_neg (show ¬ t₂ = a by omega), if_neg (show ¬ t₁ < a by omega), if_pos h1]
    · simp only [insZ, if_pos h2, if_neg (show ¬ t₁ < a by omega),
        if_neg (show ¬ t₁ = a by omega), if_neg (show ¬ t₁ < t₂ by omega),
        if_neg (show ¬ t₁ = t₂ by omega)]
    · simp only [insZ, if_neg (show ¬ t₁ < a by omega),
        if_neg (show ¬ t₁ = a by omega), if_neg (show ¬ t₂ < a by omega), if_pos h2]
    · simp only [insZ, if_neg (not_lt_of_gt h1), if_neg (show ¬ t₁ = a by omega),
        if_neg (not_lt_of_gt h2), if_neg (show ¬ t₂ = a by omega)]
      rw [ih]

theorem insZ_same (t : Int) (v₁ v₂ : V) (l : List (Int × V)) :
    insZ t v₂ (insZ t v₁ l) = insZ t v₂ l := by
  induction l with
  | nil => simp [insZ]
  | cons p rest ih =>
    obtain ⟨a, b⟩ := p
    rcases lt_trichotomy t a with h1 | h1 | h1
    · simp [insZ, h1, lt_irrefl]
    · subst h1
      simp [insZ, lt_irrefl]
    · simp only [insZ, if_neg (not_lt_of_gt h1), if_neg (by omega : ¬ t = a)]
      rw [ih]

theorem length_insZ_le (t : Int) (v : V) (l : List (Int × V)) :
    (insZ t v l).length ≤ l.length + 1 := by
  induction l with
  | nil => simp [insZ]
  | cons p rest ih =>
    obtain ⟨a, b⟩ := p
    by_cases h1 : t < a
    · simp [insZ, h1]
    · by_cases h2 : t = a
      · simp [insZ, h1, h2]
      · simp only [insZ, if_neg h1, if_neg h2, List.length_cons]
        omega

theorem specGetZ_of_forall_gt {t : Int} {l : List (Int × V)}
    (h : ∀ x ∈ l.map Prod.fst, t < x) : specGetZ t l = none := by
  cases l with
  | nil => rfl
  | cons p rest =>
    obtain ⟨a, b⟩ := p
    have : t < a := h a (by simp)
    simp [specGetZ, this]

theorem specGetZ_insZ_self {t : Int} {v : V} {l : List (Int × V)}
    (h : (l.map Prod.fst).Pairwise (· < ·)) :
    specGetZ t (insZ t v l) = some v := by
  induction l with
  | nil => simp [insZ, specGetZ]
  | cons p rest ih =>
    obtain ⟨a, b⟩ := p
    simp only [List.map_cons, List.pairwise_cons] at h
    rcases lt_trichotomy t a with h1 | h1 | h1
    · simp [insZ, h1, specGetZ, lt_irrefl, not_lt_of_gt h1]
    · subst h1
      have : specGetZ t rest = none :=
        specGetZ_of_forall_gt (fun x hx => h.1 x (by simpa using hx))
      simp [insZ, lt_irrefl, specGetZ, this]
    · simp only [insZ, if_neg (not_lt_of_gt h1), if_neg (by omega : ¬ t = a), specGetZ,
        if_neg (not_lt_of_gt h1)]
      rw [ih h.2]
      rfl

end InsZ

/-! insertHist agrees with the sorted-map insertion insZ on well-formed
histories. -/

section InsertHist

variable {V : Type}

theorem insertHist_nil (t : Int) (v : V) (vs : List V) :
    insertHist t v [] vs = ([t], vs ++ [v]) := rfl

theorem insertHist_of_getLast {ts : List Int} {last : Int}
    (h : ts.getLast? = some last) (t : Int) (v : V) (vs : List V) :
    insertHist t v ts vs =
      if last ≤ t then
        if t = last then (ts, vs.set (vs.length - 1) v)
        else (ts ++ [t], vs ++ [v])
      else
        if 0 < bisect_right ts t ∧ ts.getD (bisect_right ts t - 1) 0 = t then
          (ts, vs.set (bisect_right ts t - 1) v)
        else
          (ts.take (bisect_right ts t) ++ t :: ts.drop (bisect_right ts t),
           vs.take (bisect_right ts t) ++ v :: vs.drop (bisect_right ts t)) := by
  unfold insertHist
  rw [h]

theorem sorted_head_le_getLast {a last : Int} {l : List Int}
    (hs : (a :: l).Pairwise (· < ·)) (h : (a :: l).getLast? = some last) : a ≤ last := by
  have hmem : last ∈ a :: l := by
    obtain ⟨hne, heq⟩ := List.mem_getLast?_eq_getLast (Option.mem_def.mpr h)
    rw [heq]
    exact List.getLast_mem hne
  rcases List.mem_cons.mp hmem with rfl | hmem
  · exact le_refl _
  · exact le_of_lt ((List.pairwise_cons.mp hs).1 last hmem)

theorem insertHist_cons (t a : Int) (v b : V) (ts : List Int) (vs : List V)
    (hlt : a < t) (hlen : ts.length = vs.length) :
    insertHist t v (a :: ts) (b :: vs) =
      (a :: (insertHist t v ts vs).1, b :: (insertHist t v ts vs).2) := by
  cases ts with
  | nil =>
    have hvs : vs = [] := List.length_eq_zero.mp hlen.symm
    subst hvs
    rw [insertHist_of_getLast (show ([a] : List Int).getLast? = some a by simp)]
    rw [if_pos (le_of_lt hlt), if_neg (show ¬ t = a by omega)]
    simp [insertHist_nil]
  | cons c ts₂ =>
    cases vs with
    | nil => simp at hlen
    | cons d vs₂ =>
      cases hl : (c :: ts₂).getLast? with
      | none => simp at hl
      | some last =>
        rw [insertHist_of_getLast
            (show (a :: c :: ts₂).getLast? = some last by
              rw [List.getLast?_cons_cons]; exact hl),
          insertHist_of_getLast hl]
        by_cases hle : last ≤ t
        · rw [if_pos hle, if_pos hle]
          by_cases heq : t = last
          · rw [if_pos heq, if_pos heq]
            simp only [List.length_cons, Nat.add_sub_cancel]
            rw [List.set_cons_succ]
          · rw [if_neg heq, if_neg heq]
            simp
        · rw [if_neg hle, if_neg hle]
          rw [bisect_right_cons, if_pos (le_of_lt hlt)]
          cases hi : bisect_right (c :: ts₂) t with
          | zero =>
            rw [if_neg (show ¬ (0 < 0 + 1 ∧ (a :: c :: ts₂).getD (0 + 1 - 1) 0 = t) by
                  simp only [Nat.add_sub_cancel, List.getD_cons_zero]
                  omega),
              if_neg (by simp)]
            simp
          | succ j =>
            have hgetD :
                (a :: c :: ts₂).getD (j + 1 + 1 - 1) 0 = (c :: ts₂).getD (j + 1 - 1) 0 := by
              simp only [Nat.add_sub_cancel]
              rw [List.getD_cons_succ]
            by_cases hc : (c :: ts₂).getD (j + 1 - 1) 0 = t
            · rw [if_pos ⟨by omega, by rw [hgetD]; exact hc⟩, if_pos ⟨by omega, hc⟩]
              simp only [Nat.add_sub_cancel, List.length_cons]
              rw [List.set_cons_succ]
            · rw [if_neg (by rw [hgetD]; exact fun hand => hc hand.2),
                if_neg (fun hand => hc hand.2)]
              simp only [Nat.add_sub_cancel, List.take_succ_cons, List.drop_succ_cons,
                List.cons_append]

theorem insertHist_eq_insZ (t : Int) (v : V) (ts : List Int) (vs : List V)
    (hs : ts.Pairwise (· < ·)) (hlen : ts.length = vs.length) :
    insertHist t v ts vs = (insZ t v (ts.zip vs)).unzip := by
  induction ts generalizing vs with
  | nil =>
    have hvs : vs = [] := List.length_eq_zero.mp hlen.symm
    subst hvs
    simp [insertHist_nil, insZ]
  | cons a ts' ih =>
    cases vs with
    | nil => simp at hlen
    | cons b vs' =>
      have hlen' : ts'.length = vs'.length := by simpa using hlen
      have huz : (ts'.zip vs').unzip = (ts', vs') := List.unzip_zip hlen'
      rw [List.zip_cons_cons]
      rcases lt_trichotomy t a with h1 | h1 | h1
      · -- new earliest timestamp: out-of-order insert at the front
        cases hl : (a :: ts').getLast? with
        | none => simp at hl
        | some last =>
          have halast : a ≤ last := sorted_head_le_getLast hs hl
          rw [insertHist_of_getLast hl, if_neg (show ¬ last ≤ t by omega)]
          rw [if_neg (show ¬ (0 < bisect_right (a :: ts') t ∧ _) by
                rw [bisect_right_cons, if_neg (show ¬ a ≤ t by omega)]
                simp)]
          rw [bisect_right_cons, if_neg (show ¬ a ≤ t by omega)]
          simp only [insZ, if_pos h1, List.unzip_cons, huz]
          simp
      · -- equal timestamp: overwrite in place
        subst h1
        cases ts' with
        | nil =>
          have hvs' : vs' = [] := List.length_eq_zero.mp hlen'.symm
          subst hvs'
          rw [insertHist_of_getLast (show ([t] : List Int).getLast? = some t by simp)]
          rw [if_pos (le_refl t), if_pos rfl]
          simp [insZ]
        | cons c ts₂ =>
          have hac : t < c := (List.pairwise_cons.mp hs).1 c (by simp)
          cases hl : (c :: ts₂).getLast? with
          | none => simp at hl
          | some last =>
            have hclast : c ≤ last :=
              sorted_head_le_getLast (List.pairwise_cons.mp hs).2 hl
            rw [insertHist_of_getLast
                (show (t :: c :: ts₂).getLast? = some last by
                  rw [List.getLast?_cons_cons]; exact hl)]
            rw [if_neg (show ¬ last ≤ t by omega)]
            have hbr : bisect_right (t :: c :: ts₂) t = 1 := by
              rw [bisect_right_cons, if_pos (le_refl t), bisect_right_cons,
                if_neg (show ¬ c ≤ t by omega)]
            rw [hbr]
            rw [if_pos ⟨by omega, by simp⟩]
            simp [insZ, lt_irrefl, huz]
      · -- strictly larger than the head: recurse on the tail
        rw [insertHist_cons t a v b ts' vs' h1 hlen']
        rw [ih vs' (List.pairwise_cons.mp hs).2 hlen']
        simp only [insZ, if_neg (show ¬ t < a by omega), if_neg (show ¬ t = a by omega),
          List.unzip_cons]

end InsertHist

/-! Folding histories: transport to insZ, and invariance under the stable
sort used by insert_many. -/

section Fold

variable {V : Type}

theorem foldl_insertHist_eq (items : List (Int × V)) (ts : List Int) (vs : List V)
    (hs : ts.Pairwise (· < ·)) (hlen : ts.length = vs.length) :
    items.foldl (fun a p => insertHist p.1 p.2 a.1 a.2) (ts, vs) =
      (items.foldl (fun l p => insZ p.1 p.2 l) (ts.zip vs)).unzip := by
  induction items generalizing ts vs with
  | nil => simp [List.unzip_zip hlen]
  | cons p items' ih =>
    simp only [List.foldl_cons]
    rw [insertHist_eq_insZ p.1 p.2 ts vs hs hlen]
    set l₁ := insZ p.1 p.2 (ts.zip vs) with hl₁
    have hfst : l₁.unzip.1 = l₁.map Prod.fst := List.unzip_fst
    have hsnd : l₁.unzip.2 = l₁.map Prod.snd := List.unzip_snd
    have hs₁ : l₁.unzip.1.Pairwise (· < ·) := by
      rw [hfst]
      apply insZ_pairwise
      rw [List.map_fst_zip ts vs (le_of_eq hlen)]
      exact hs
    have hlen₁ : l₁.unzip.1.length = l₁.unzip.2.length := by
      rw [hfst, hsnd, List.length_map, List.length_map]
    have := ih l₁.unzip.1 l₁.unzip.2 hs₁ hlen₁
    rw [show (l₁.unzip.1, l₁.unzip.2) = l₁.unzip from rfl] at this
    rw [this, List.zip_unzip]

theorem foldl_insZ_orderedInsert (p : Int × V) (l : List (Int × V)) (s : List (Int × V)) :
    (List.orderedInsert (fun x y => x.1 ≤ y.1) p l).foldl (fun acc q => insZ q.1 q.2 acc) s =
      l.foldl (fun acc q => insZ q.1 q.2 acc) (insZ p.1 p.2 s) := by
  induction l generalizing s with
  | nil => simp [List.orderedInsert]
  | cons q l' ih =>
    by_cases hle : p.1 ≤ q.1
    · simp [List.orderedInsert, hle]
    · simp only [List.orderedInsert, if_neg hle, List.foldl_cons]
      rw [ih (insZ q.1 q.2 s), insZ_comm _ _ _ (show p.1 ≠ q.1 by omega)]

theorem foldl_insZ_sortByTs (items : List (Int × V)) (s : List (Int × V)) :
    (sortByTs items).foldl (fun acc q => insZ q.1 q.2 acc) s =
      items.foldl (fun acc q => insZ q.1 q.2 acc) s := by
  induction items generalizing s with
  | nil => rfl
  | cons p items' ih =>
    simp only [sortByTs, List.insertionSort] at ih ⊢
    rw [foldl_insZ_orderedInsert, ih (insZ p.1 p.2 s), List.foldl_cons]

/-! Reading: the bisect-based point read equals the specification reading. -/

theorem bisect_get_eq_specGetZ (t : Int) (ts : List Int) (vs : List V)
    (hs : ts.Pairwise (· < ·)) (hlen : ts.length = vs.length) :
    (if bisect_right ts t = 0 then none else vs.get? (bisect_right ts t - 1)) =
      specGetZ t (ts.zip vs) := by
  induction ts generalizing vs with
  | nil => simp [specGetZ]
  | cons a ts' ih =>
    cases vs with
    | nil => simp at hlen
    | cons b vs' =>
      have hlen' : ts'.length = vs'.length := by simpa using hlen
      have hs' : ts'.Pairwise (· < ·) := (List.pairwise_cons.mp hs).2
      by_cases hat : a ≤ t
      · rw [bisect_right_cons, if_pos hat]
        rw [List.zip_cons_cons]
        simp only [specGetZ, if_neg (show ¬ t < a by omega)]
        cases hb : bisect_right ts' t with
        | zero =>
          have h0 := ih vs' hs' hlen'
          rw [hb, if_pos rfl] at h0
          simp [← h0]
        | succ j =>
          have h0 := ih vs' hs' hlen'
          rw [hb, if_neg (Nat.succ_ne_zero j)] at h0
          -- bisect_right positive forces a qualifying head, so the inner
          -- reading is some value
          cases ts' with
          | nil => simp [bisect_right] at hb
          | cons c ts₂ =>
            cases vs' with
            | nil => simp at hlen'
            | cons d vs₂ =>
              have hct : c ≤ t := by
                by_contra hct
                rw [bisect_right_cons, if_neg hct] at hb
                exact Nat.succ_ne_zero j hb.symm
              rw [List.zip_cons_cons]
              simp only [specGetZ, if_neg (show ¬ t < c by omega)]
              rw [List.zip_cons_cons] at h0
              simp only [specGetZ, if_neg (show ¬ t < c by omega)] at h0
              simp only [Nat.add_sub_cancel, List.get?_cons_succ]
              rw [show j + 1 - 1 = j from rfl] at h0
              rw [h0]
              rfl
      · rw [bisect_right_cons, if_neg hat]
        rw [List.zip_cons_cons]
        simp [specGetZ, show t < a by omega]

theorem effectiveAt_eq_specGetZ (t : Int) (l : List (Int × V))
    (hs : (l.map Prod.fst).Pairwise (· < ·)) : effectiveAt t l = specGetZ t l := by
  induction l with
  | nil => rfl
  | cons p rest ih =>
    obtain ⟨a, b⟩ := p
    simp only [List.map_cons, List.pairwise_cons] at hs
    by_cases hta : t < a
    · have hrest : rest.filter (fun p => decide (p.1 ≤ t)) = [] := by
        rw [List.filter_eq_nil_iff]
        intro q hq
        have : a < q.1 := hs.1 q.1 (List.mem_map_of_mem Prod.fst hq)
        simp only [decide_eq_true_eq]
        omega
      simp [effectiveAt, specGetZ, hta, show ¬ a ≤ t by omega, hrest]
    · simp only [effectiveAt, specGetZ, if_neg hta, List.filter_cons,
        decide_eq_true_eq, if_pos (show a ≤ t by omega)]
      have ihv : effectiveAt t rest = specGetZ t rest := ih hs.2
      cases hf : rest.filter (fun p => decide (p.1 ≤ t)) with
      | nil =>
        have : specGetZ t rest = none := by
          rw [← ihv]
          simp [effectiveAt, hf]
        simp [this]
      | cons q fr' =>
        have hns : (q :: fr').getLast? ≠ none := by
          cases fr' <;> simp
        cases hgl : (q :: fr').getLast? with
        | none => exact absurd hgl hns
        | some r =>
          have : specGetZ t rest = some r.2 := by
            rw [← ihv]
            simp [effectiveAt, hf, hgl]
          rw [List.getLast?_cons_cons, hgl]
          simp [this]

end Fold

/-! Invariant preservation. -/

section Invariant

variable {V : Type}

theorem Inv_lookup {c : Cache V} {k : String} {h : Hist V} (hc : Inv c)
    (hl : lookupKey c.entries k = some h) : histInv h :=
  hc.2 (k, h) (mem_of_lookupKey hl)

theorem histInv_empty : histInv (([], []) : Hist V) := by
  constructor <;> simp

theorem histInv_histOf {c : Cache V} (k : String) (hc : Inv c) : histInv (histOf c k) := by
  unfold histOf
  cases hl : lookupKey c.entries k with
  | none => exact histInv_empty
  | some h => exact Inv_lookup hc hl

theorem Inv_setKey {c : Cache V} {k : String} {h : Hist V} (hc : Inv c)
    (hh : histInv h) : Inv (⟨setKey c.entries k h⟩ : Cache V) := by
  constructor
  · by_cases hmem : k ∈ c.entries.map Prod.fst
    · rw [map_fst_setKey_mem h hmem]
      exact hc.1
    · rw [map_fst_setKey_not_mem h hmem]
      simp only [List.nodup_append, List.nodup_cons, List.not_mem_nil, not_false_iff,
        List.nodup_nil, and_true, true_and]
      refine ⟨hc.1, ?_⟩
      intro x hx
      simp only [List.mem_singleton]
      intro hxk
      exact hmem (hxk ▸ hx)
  · intro e he
    rcases mem_setKey he with rfl | he
    · exact hh
    · exact hc.2 e he

theorem pairwise_map_fst_zip {ts : List Int} {vs : List V}
    (hs : ts.Pairwise (· < ·)) (hlen : ts.length = vs.length) :
    ((ts.zip vs).map Prod.fst).Pairwise (· < ·) := by
  rw [List.map_fst_zip ts vs (le_of_eq hlen)]
  exact hs

theorem histInv_unzip {l : List (Int × V)} (hs : (l.map Prod.fst).Pairwise (· < ·)) :
    histInv l.unzip := by
  constructor
  · rw [List.unzip_fst]
    exact hs
  · rw [List.unzip_fst, List.unzip_snd, List.length_map, List.length_map]

theorem histInv_insertHist (t : Int) (v : V) {ts : List Int} {vs : List V}
    (h : histInv (ts, vs)) : histInv (insertHist t v ts vs) := by
  rw [insertHist_eq_insZ t v ts vs h.1 h.2]
  exact histInv_unzip (insZ_pairwise (pairwise_map_fst_zip h.1 h.2))

theorem pairwise_foldl_insZ (items : List (Int × V)) {l : List (Int × V)}
    (hs : (l.map Prod.fst).Pairwise (· < ·)) :
    (((items.foldl (fun acc q => insZ q.1 q.2 acc) l)).map Prod.fst).Pairwise (· < ·) := by
  induction items generalizing l with
  | nil => exact hs
  | cons p items' ih => exact ih (insZ_pairwise hs)

theorem histInv_foldl_insertHist (items : List (Int × V)) {h : Hist V} (hh : histInv h) :
    histInv (items.foldl (fun a p => insertHist p.1 p.2 a.1 a.2) h) := by
  obtain ⟨ts, vs⟩ := h
  rw [foldl_insertHist_eq items ts vs hh.1 hh.2]
  exact histInv_unzip (pairwise_foldl_insZ items (pairwise_map_fst_zip hh.1 hh.2))

theorem Inv_insert {c : Cache V} (t : Int) (k : String) (v : V) (hc : Inv c) :
    Inv (c.insert t k v) := by
  unfold Cache.insert
  exact Inv_setKey hc
    (histInv_insertHist t v (by simpa [histOf] using histInv_histOf k hc))

theorem Inv_applyBucket {c : Cache V} (k : String) (items : List (Int × V)) (hc : Inv c) :
    Inv (applyBucket c k items) := by
  unfold applyBucket
  exact Inv_setKey hc
    (histInv_foldl_insertHist items (by simpa [histOf] using histInv_histOf k hc))

theorem Inv_insert_many {c : Cache V} (es : List (Int × String × V)) (hc : Inv c) :
    Inv (c.insert_many es) := by
  unfold Cache.insert_many
  generalize buckets es = bs
  induction bs generalizing c with
  | nil => exact hc
  | cons kb bs' ih => exact ih (Inv_applyBucket kb.1 (sortByTs kb.2) hc)

theorem histInv_drop {ts : List Int} {vs : List V} (n : Nat) (h : histInv (ts, vs)) :
    histInv (ts.drop n, vs.drop n) := by
  constructor
  · exact List.Pairwise.sublist (List.drop_sublist n ts) h.1
  · simp only [List.length_drop]
    rw [h.2]

theorem Inv_delete_upto {c : Cache V} (k : String) (t : Int) (hc : Inv c) :
    Inv (c.delete_upto k t).2 := by
  cases hl : lookupKey c.entries k with
  | none =>
    simp only [Cache.delete_upto, hl]
    exact hc
  | some h =>
    simp only [Cache.delete_upto, hl]
    by_cases hts : h.1 = []
    · rw [if_pos hts]
      exact hc
    · rw [if_neg hts]
      by_cases hcut : bisect_right h.1 t = 0
      · rw [if_pos hcut]
        exact hc
      · rw [if_neg hcut]
        exact Inv_setKey hc (histInv_drop _ (by simpa using Inv_lookup hc hl))

theorem dedupLoop_length [DecidableEq V] (prev : V) (ts : List Int) (vs : List V) :
    (dedupLoop prev ts vs).1.length = (dedupLoop prev ts vs).2.length := by
  induction ts generalizing prev vs with
  | nil => simp [dedupLoop]
  | cons t ts' ih =>
    cases vs with
    | nil => simp [dedupLoop]
    | cons v vs' =>
      by_cases hv : v = prev
      · simp only [dedupLoop, hv, ne_eq, not_true_eq_false, if_neg]
        · exact ih prev vs'
      · simp only [dedupLoop, if_pos hv, List.length_cons]
        rw [ih v vs']

theorem dedupLoop_sublist [DecidableEq V] (prev : V) (ts : List Int) (vs : List V) :
    (dedupLoop prev ts vs).1.Sublist ts := by
  induction ts generalizing prev vs with
  | nil => simp [dedupLoop]
  | cons t ts' ih =>
    cases vs with
    | nil => simp [dedupLoop]
    | cons v vs' =>
      by_cases hv : v = prev
      · simp only [dedupLoop, hv, ne_eq, not_true_eq_false, if_neg]
        · exact (ih prev vs').cons t
      · simp only [dedupLoop, if_pos hv]
        exact (ih v vs').cons₂ t

theorem histInv_dedupHist [DecidableEq V] {ts : List Int} {vs : List V}
    (h : histInv (ts, vs)) : histInv (dedupHist ts vs) := by
  cases ts with
  | nil => cases vs <;> exact h
  | cons t ts' =>
    cases vs with
    | nil => exact h
    | cons v vs' =>
      constructor
      · show (t :: (dedupLoop v ts' vs').1).Pairwise (· < ·)
        have hsub : (t :: (dedupLoop v ts' vs').1).Sublist (t :: ts') :=
          (dedupLoop_sublist v ts' vs').cons₂ t
        exact List.Pairwise.sublist hsub h.1
      · show (t :: (dedupLoop v ts' vs').1).length = (v :: (dedupLoop v ts' vs').2).length
        simp [dedupLoop_length]

theorem histInv_trimHist {h : Hist V} (n : Option Int) (hh : histInv h) :
    histInv (trimHist n h) := by
  cases n with
  | none => exact hh
  | some m =>
    by_cases hm : 0 ≤ m ∧ m < (h.1.length : Int)
    · simp only [trimHist, if_pos hm]
      exact histInv_drop _ (by obtain ⟨ts, vs⟩ := h; exact hh)
    · simp only [trimHist, if_neg hm]
      exact hh

theorem histInv_dedupIf [DecidableEq V] {h : Hist V} (d : Bool) (hh : histInv h) :
    histInv (dedupIf d h) := by
  by_cases hd : d ∧ h.1 ≠ []
  · simp only [dedupIf, if_pos hd]
    exact histInv_dedupHist (by obtain ⟨ts, vs⟩ := h; exact hh)
  · simp only [dedupIf, if_neg hd]
    exact hh

theorem Inv_compact [DecidableEq V] {c : Cache V} (k : String) (n : Option Int)
    (d : Bool) (hc : Inv c) : Inv (c.compact k n d) := by
  cases hl : lookupKey c.entries k with
  | none =>
    simp only [Cache.compact, hl]
    exact hc
  | some h =>
    simp only [Cache.compact, hl]
    by_cases hts : h.1 = []
    · rw [if_pos hts]
      exact hc
    · rw [if_neg hts]
      exact Inv_setKey hc (histInv_dedupIf d (histInv_trimHist n (Inv_lookup hc hl)))

theorem Inv_emptyCache : Inv (Cache.emptyCache : Cache V) := by
  constructor <;> simp [Cache.emptyCache]

theorem Inv_applyOp [DecidableEq V] {c : Cache V} (op : Op V) (hc : Inv c) :
    Inv (applyOp c op) := by
  cases op with
  | insert t k v => exact Inv_insert t k v hc
  | insert_many es => exact Inv_insert_many es hc
  | get t k => exact hc
  | latest k => exact hc
  | get_range k s e => exact hc
  | delete_upto k t => exact Inv_delete_upto k t hc
  | compact k n d => exact Inv_compact k n d hc

theorem Inv_applyOps [DecidableEq V] {c : Cache V} (ops : List (Op V)) (hc : Inv c) :
    Inv (applyOps c ops) := by
  induction ops generalizing c with
  | nil => exact hc
  | cons op ops' ih => exact ih (Inv_applyOp op hc)

end Invariant

/-! Point reads through the specification reading. -/

section GetSpec

variable {V : Type}

theorem lookup_insert_self (c : Cache V) (t : Int) (k : String) (v : V) :
    lookupKey (c.insert t k v).entries k =
      some (insertHist t v (histOf c k).1 (histOf c k).2) := by
  simp [Cache.insert, histOf]

theorem lookup_insert_ne (c : Cache V) (t : Int) (k : String) (v : V) (k₂ : String)
    (h : k ≠ k₂) : lookupKey (c.insert t k v).entries k₂ = lookupKey c.entries k₂ := by
  simp [Cache.insert, lookupKey_setKey_ne _ _ _ _ h]

theorem histOf_insert_self (c : Cache V) (t : Int) (k : String) (v : V) :
    histOf (c.insert t k v) k = insertHist t v (histOf c k).1 (histOf c k).2 := by
  simp [histOf, lookup_insert_self]

theorem get_eq_specGetZ (c : Cache V) (hc : Inv c) (t : Int) (k : String) :
    c.get t k = specGetZ t (histZip c k) := by
  cases hl : lookupKey c.entries k with
  | none => simp [Cache.get, hl, histZip, histOf, specGetZ]
  | some h =>
    have hinv := Inv_lookup hc hl
    have hzip : histZip c k = h.1.zip h.2 := by simp [histZip, histOf, hl]
    rw [hzip]
    simp only [Cache.get, hl]
    by_cases hts : h.1 = []
    · rw [if_pos hts, hts]
      simp [specGetZ]
    · rw [if_neg hts]
      exact bisect_get_eq_specGetZ t h.1 h.2 hinv.1 hinv.2

end GetSpec

/-! Slices of the sorted history as filters. -/

section Slice

variable {V : Type}

theorem zip_drop (n : Nat) (l₁ : List Int) (l₂ : List V) :
    (l₁.zip l₂).drop n = (l₁.drop n).zip (l₂.drop n) := by
  induction n generalizing l₁ l₂ with
  | zero => simp
  | succ m ih =>
    cases l₁ with
    | nil => simp
    | cons a l₁' =>
      cases l₂ with
      | nil => simp
      | cons b l₂' => simp [List.zip_cons_cons, List.drop_succ_cons, ih]

theorem forall_zip_fst_gt {a t : Int} {ts : List Int} {vs : List V}
    (hs : (a :: ts).Pairwise (· < ·)) (hta : a > t) :
    ∀ p ∈ ts.zip vs, t < p.1 := by
  intro p hp
  have h1 : p.1 ∈ ts := (List.of_mem_zip hp).1
  have h2 : a < p.1 := (List.pairwise_cons.mp hs).1 p.1 h1
  omega

theorem slice_eq_filter (s e : Int) (ts : List Int) (vs : List V)
    (hs : ts.Pairwise (· < ·)) :
    ((ts.zip vs).take (bisect_right ts e)).drop (bisect_left ts s) =
      (ts.zip vs).filter (fun p => decide (s ≤ p.1 ∧ p.1 ≤ e)) := by
  induction ts generalizing vs with
  | nil => simp
  | cons a ts' ih =>
    cases vs with
    | nil => simp
    | cons b vs' =>
      have hs' : ts'.Pairwise (· < ·) := (List.pairwise_cons.mp hs).2
      rw [List.zip_cons_cons]
      by_cases hae : a ≤ e
      · rw [bisect_right_cons, if_pos hae, List.take_succ_cons]
        by_cases has : a < s
        · rw [bisect_left_cons, if_pos has, List.drop_succ_cons]
          rw [List.filter_cons_of_neg (by simp; omega)]
          exact ih vs' hs'
        · rw [bisect_left_cons, if_neg has, List.drop_zero]
          rw [List.filter_cons_of_pos (by simp; omega)]
          have hbl' : bisect_left ts' s = 0 := by
            cases ts' with
            | nil => rfl
            | cons c ts₂ =>
              have hac : a < c := (List.pairwise_cons.mp hs).1 c (by simp)
              rw [bisect_left_cons, if_neg (by omega)]
          have := ih vs' hs'
          rw [hbl', List.drop_zero] at this
          rw [this]
      · rw [bisect_right_cons, if_neg hae, List.take_zero, List.drop_nil]
        rw [List.filter_cons_of_neg (by simp; omega)]
        rw [eq_comm, List.filter_eq_nil_iff]
        intro p hp
        have := forall_zip_fst_gt hs (by omega : a > e) p hp
        simp only [decide_eq_true_eq]
        omega

theorem filter_le_length_eq_bisect (t : Int) (ts : List Int) (vs : List V)
    (hs : ts.Pairwise (· < ·)) (hlen : ts.length = vs.length) :
    ((ts.zip vs).filter (fun p => decide (p.1 ≤ t))).length = bisect_right ts t := by
  induction ts generalizing vs with
  | nil => simp
  | cons a ts' ih =>
    cases vs with
    | nil => simp at hlen
    | cons b vs' =>
      have hs' : ts'.Pairwise (· < ·) := (List.pairwise_cons.mp hs).2
      have hlen' : ts'.length = vs'.length := by simpa using hlen
      rw [List.zip_cons_cons, bisect_right_cons]
      by_cases hat : a ≤ t
      · rw [if_pos hat, List.filter_cons_of_pos (by simpa using hat)]
        simp only [List.length_cons]
        rw [ih vs' hs' hlen']
      · rw [if_neg hat, List.filter_cons_of_neg (by simpa using hat)]
        rw [List.filter_eq_nil_iff.mpr]
        · rfl
        · intro p hp
          have := forall_zip_fst_gt hs (by omega : a > t) p hp
          simp only [decide_eq_true_eq]
          omega

theorem drop_bisect_eq_filter (t : Int) (ts : List Int) (vs : List V)
    (hs : ts.Pairwise (· < ·)) :
    (ts.zip vs).drop (bisect_right ts t) =
      (ts.zip vs).filter (fun p => decide (t < p.1)) := by
  induction ts generalizing vs with
  | nil => simp
  | cons a ts' ih =>
    cases vs with
    | nil => simp
    | cons b vs' =>
      have hs' : ts'.Pairwise (· < ·) := (List.pairwise_cons.mp hs).2
      rw [List.zip_cons_cons, bisect_right_cons]
      by_cases hat : a ≤ t
      · rw [if_pos hat, List.drop_succ_cons,
          List.filter_cons_of_neg (by simp; omega)]
        exact ih vs' hs'
      · rw [if_neg hat, List.drop_zero,
          List.filter_cons_of_pos (by simp; omega)]
        congr 1
        rw [eq_comm, List.filter_eq_self]
        intro p hp
        have := forall_zip_fst_gt hs (by omega : a > t) p hp
        simpa using this

end Slice

/-! The compact passes on zipped histories. -/

section CompactSpec

variable {V : Type}

theorem zip_trimHist (n : Option Int) (h : Hist V) (hlen : h.1.length = h.2.length) :
    (trimHist n h).1.zip (trimHist n h).2 = specTrim n (h.1.zip h.2) := by
  cases n with
  | none => rfl
  | some m =>
    have hzl : (h.1.zip h.2).length = h.1.length := by
      rw [List.length_zip, hlen, min_self, ← hlen]
    by_cases hm : 0 ≤ m ∧ m < (h.1.length : Int)
    · simp only [trimHist, if_pos hm, specTrim, hzl, if_pos hm]
      rw [zip_drop]
    · simp only [trimHist, if_neg hm, specTrim, hzl, if_neg hm]

theorem zip_dedupLoop [DecidableEq V] (prev : V) (ts : List Int) (vs : List V)
    (hlen : ts.length = vs.length) :
    (dedupLoop prev ts vs).1.zip (dedupLoop prev ts vs).2 =
      specDedupLoop prev (ts.zip vs) := by
  induction ts generalizing prev vs with
  | nil =>
    have hvs : vs = [] := List.length_eq_zero.mp hlen.symm
    subst hvs
    rfl
  | cons t ts' ih =>
    cases vs with
    | nil => simp at hlen
    | cons v vs' =>
      have hlen' : ts'.length = vs'.length := by simpa using hlen
      rw [List.zip_cons_cons]
      by_cases hv : v = prev
      · simp only [dedupLoop, hv, ne_eq, not_true_eq_false, if_neg, specDedupLoop,
          if_pos rfl]
        · exact ih prev vs' hlen'
      · simp only [dedupLoop, if_pos hv, specDedupLoop, if_neg hv, List.zip_cons_cons]
        rw [ih v vs' hlen']

theorem zip_dedupHist [DecidableEq V] (ts : List Int) (vs : List V)
    (hlen : ts.length = vs.length) :
    (dedupHist ts vs).1.zip (dedupHist ts vs).2 = specDedup (ts.zip vs) := by
  cases ts with
  | nil =>
    have hvs : vs = [] := List.length_eq_zero.mp hlen.symm
    subst hvs
    rfl
  | cons t ts' =>
    cases vs with
    | nil => simp at hlen
    | cons v vs' =>
      have hlen' : ts'.length = vs'.length := by simpa using hlen
      simp only [dedupHist, List.zip_cons_cons, specDedup]
      rw [zip_dedupLoop v ts' vs' hlen']

theorem zip_dedupIf [DecidableEq V] (d : Bool) (h : Hist V)
    (hlen : h.1.length = h.2.length) :
    (dedupIf d h).1.zip (dedupIf d h).2 =
      if d then specDedup (h.1.zip h.2) else h.1.zip h.2 := by
  cases d with
  | false => simp [dedupIf]
  | true =>
    by_cases hts : h.1 = []
    · have hz : h.1.zip h.2 = [] := by rw [hts]; simp
      simp [dedupIf, hts, hz, specDedup]
    · simp only [dedupIf, hts, ne_eq, not_false_iff, and_true, if_true, true_and,
        if_pos trivial]
      exact zip_dedupHist h.1 h.2 hlen

theorem specCompactZ_nil [DecidableEq V] (n : Option Int) (d : Bool) :
    specCompactZ n d ([] : List (Int × V)) = [] := by
  have ht : specTrim n ([] : List (Int × V)) = [] := by
    cases n <;> simp [specTrim]
  cases d <;> simp [specCompactZ, ht, specDedup]

theorem specDedupLoop_sublist [DecidableEq V] (prev : V) (l : List (Int × V)) :
    (specDedupLoop prev l).Sublist l := by
  induction l generalizing prev with
  | nil => simp [specDedupLoop]
  | cons p rest ih =>
    obtain ⟨a, b⟩ := p
    by_cases hb : b = prev
    · simp only [specDedupLoop, if_pos hb]
      exact (ih prev).cons _
    · simp only [specDedupLoop, if_neg hb]
      exact (ih b).cons₂ _

theorem specGetZ_specDedupLoop (t : Int) {V : Type} [DecidableEq V] (prev : V)
    (l : List (Int × V)) (hs : (l.map Prod.fst).Pairwise (· < ·)) :
    (specGetZ t (specDedupLoop prev l)).getD prev = (specGetZ t l).getD prev := by
  induction l generalizing prev with
  | nil => rfl
  | cons p rest ih =>
    obtain ⟨a, b⟩ := p
    simp only [List.map_cons, List.pairwise_cons] at hs
    by_cases hb : b = prev
    · rw [specDedupLoop, if_pos hb]
      by_cases hta : t < a
      · rw [specGetZ, if_pos hta, Option.getD_none]
        have hnone : specGetZ t (specDedupLoop prev rest) = none := by
          apply specGetZ_of_forall_gt
          intro x hx
          obtain ⟨q, hq, hqx⟩ := List.mem_map.mp hx
          have hqr : q ∈ rest := (specDedupLoop_sublist prev rest).mem hq
          have : a < q.1 := hs.1 q.1 (List.mem_map_of_mem Prod.fst hqr)
          omega
        rw [hnone, Option.getD_none]
      · rw [specGetZ, if_neg hta, Option.getD_some, hb]
        exact ih prev hs.2
    · rw [specDedupLoop, if_neg hb]
      by_cases hta : t < a
      · rw [specGetZ, if_pos hta, specGetZ, if_pos hta]
      · rw [specGetZ, if_neg hta, specGetZ, if_neg hta,
          Option.getD_some, Option.getD_some]
        exact ih b hs.2

theorem specGetZ_specDedup (t : Int) {V : Type} [DecidableEq V] (l : List (Int × V))
    (hs : (l.map Prod.fst).Pairwise (· < ·)) :
    specGetZ t (specDedup l) = specGetZ t l := by
  cases l with
  | nil => rfl
  | cons p rest =>
    obtain ⟨a, b⟩ := p
    simp only [List.map_cons, List.pairwise_cons] at hs
    by_cases hta : t < a
    · simp only [specDedup, specGetZ, if_pos hta]
    · simp only [specDedup, specGetZ, if_neg hta]
      rw [specGetZ_specDedupLoop t b rest hs.2]

end CompactSpec

/-- C1: for every well-formed store, key and timestamp t, get returns the
value stored at the largest stored timestamp that is at most t (the last
qualifying pair of the ascending history), and absent when the key is
absent, its history is empty, or every stored timestamp exceeds t. -/
theorem C1_point_read {V : Type} (c : Cache V) (hc : Inv c) (t : Int) (k : String) :
    c.get t k = effectiveAt t (histZip c k) := by
  rw [get_eq_specGetZ c hc t k]
  have hinv := histInv_histOf k hc
  exact (effectiveAt_eq_specGetZ t (histZip c k)
    (pairwise_map_fst_zip hinv.1 hinv.2)).symm

/-- Witness for C1 on the point-read example of the spec. -/
theorem C1_point_read_witness :
    Inv (⟨[("a", ([1, 2, 5], [10, 20, 50]))]⟩ : Cache Nat) ∧
      (⟨[("a", ([1, 2, 5], [10, 20, 50]))]⟩ : Cache Nat).get 3 "a" =
        effectiveAt 3 (histZip (⟨[("a", ([1, 2, 5], [10, 20, 50]))]⟩ : Cache Nat) "a") :=
  ⟨by decide, C1_point_read _ (by decide) 3 "a"⟩

/-- C2: after any finite operation sequence from the empty store, every
stored history has strictly increasing timestamps and index-aligned arrays
of equal length. -/
theorem C2_invariant {V : Type} [DecidableEq V] (ops : List (Op V)) (k : String)
    (h : Hist V) (hl : lookupKey (applyOps Cache.emptyCache ops).entries k = some h) :
    h.1.Pairwise (· < ·) ∧ h.1.length = h.2.length :=
  Inv_lookup (Inv_applyOps ops Inv_emptyCache) hl

/-- Witness for C2 on a two-element out-of-order insert sequence. -/
theorem C2_invariant_witness :
    lookupKey (applyOps (Cache.emptyCache : Cache Nat)
        [Op.insert 5 "a" 1, Op.insert 3 "a" 2]).entries "a" =
      some (([3, 5] : List Int), ([2, 1] : List Nat)) ∧
      (([3, 5] : List Int).Pairwise (· < ·) ∧ ([3, 5] : List Int).length = [2, 1].length) :=
  ⟨by decide, C2_invariant [Op.insert 5 "a" 1, Op.insert 3 "a" 2] "a"
    (([3, 5] : List Int), ([2, 1] : List Nat)) (by decide)⟩

/-- C9: the three read operations leave the store state (key set and every
history) exactly as it was. -/
theorem C9_reads_pure {V : Type} [DecidableEq V] (c : Cache V) (t : Int) (k : String)
    (s e : Int) :
    applyOp c (Op.get t k) = c ∧ applyOp c (Op.latest k) = c ∧
      applyOp c (Op.get_range k s e) = c :=
  ⟨rfl, rfl, rfl⟩

/-- C5: inserting twice at the same timestamp leaves the second value
readable at that timestamp, and grows the version count of the key by at
most one over the state before the first insert. -/
theorem C5_overwrite {V : Type} (c : Cache V) (hc : Inv c) (t : Int) (k : String)
    (v₁ v₂ : V) :
    ((c.insert t k v₁).insert t k v₂).get t k = some v₂ ∧
      (histOf ((c.insert t k v₁).insert t k v₂) k).1.length ≤
        (histOf c k).1.length + 1 := by
  have hinv : histInv (histOf c k) := histInv_histOf k hc
  have hc₁ : Inv (c.insert t k v₁) := Inv_insert t k v₁ hc
  have hc₂ : Inv ((c.insert t k v₁).insert t k v₂) := Inv_insert t k v₂ hc₁
  have hinv₁ : histInv (histOf (c.insert t k v₁) k) := histInv_histOf k hc₁
  have hz₁ : histZip (c.insert t k v₁) k = insZ t v₁ (histZip c k) := by
    unfold histZip
    rw [histOf_insert_self, insertHist_eq_insZ t v₁ _ _ hinv.1 hinv.2, List.zip_unzip]
  have hz : histZip ((c.insert t k v₁).insert t k v₂) k = insZ t v₂ (histZip c k) := by
    have e1 : histZip ((c.insert t k v₁).insert t k v₂) k =
        insZ t v₂ (histZip (c.insert t k v₁) k) := by
      unfold histZip
      rw [histOf_insert_self (c.insert t k v₁) t k v₂,
        insertHist_eq_insZ t v₂ _ _ hinv₁.1 hinv₁.2, List.zip_unzip]
    rw [e1, hz₁, insZ_same]
  constructor
  · rw [get_eq_specGetZ _ hc₂ t k, hz]
    exact specGetZ_insZ_self (pairwise_map_fst_zip hinv.1 hinv.2)
  · have h1 : (histOf ((c.insert t k v₁).insert t k v₂) k).1.length =
        (histZip ((c.insert t k v₁).insert t k v₂) k).length := by
      have h₂ := histInv_histOf k hc₂
      unfold histZip
      rw [List.length_zip, h₂.2, min_self, ← h₂.2]
    rw [h1, hz]
    calc (insZ t v₂ (histZip c k)).length ≤ (histZip c k).length + 1 :=
          length_insZ_le t v₂ _
      _ ≤ (histOf c k).1.length + 1 := by
          unfold histZip
          rw [List.length_zip]
          omega

/-- C8: get_range returns exactly the stored pairs with timestamp inside the
closed interval, in ascending timestamp order; it is empty on an inverted
range, an absent key, or an empty history, and the call leaves the store
unchanged. -/
theorem C8_get_range {V : Type} [DecidableEq V] (c : Cache V) (hc : Inv c)
    (k : String) (s e : Int) :
    c.get_range k s e = (histZip c k).filter (fun p => decide (s ≤ p.1 ∧ p.1 ≤ e)) ∧
      ((c.get_range k s e).map Prod.fst).Pairwise (· < ·) ∧
      (e < s → c.get_range k s e = []) ∧
      (lookupKey c.entries k = none → c.get_range k s e = []) ∧
      (∀ h, lookupKey c.entries k = some h → h.1 = [] → c.get_range k s e = []) ∧
      applyOp c (Op.get_range k s e) = c := by
  have hmain :
      c.get_range k s e = (histZip c k).filter (fun p => decide (s ≤ p.1 ∧ p.1 ≤ e)) := by
    cases hl : lookupKey c.entries k with
    | none =>
      simp [Cache.get_range, hl, histZip, histOf]
    | some h =>
      have hinv := Inv_lookup hc hl
      have hzip : histZip c k = h.1.zip h.2 := by simp [histZip, histOf, hl]
      rw [hzip]
      by_cases hes : e < s
      · simp only [Cache.get_range, if_pos hes]
        rw [eq_comm, List.filter_eq_nil_iff]
        intro p hp
        simp only [decide_eq_true_eq]
        omega
      · simp only [Cache.get_range, if_neg hes, hl]
        by_cases hts : h.1 = []
        · rw [if_pos hts, hts]
          simp
        · rw [if_neg hts]
          exact slice_eq_filter s e h.1 h.2 hinv.1
  refine ⟨hmain, ?_, ?_, ?_, ?_, rfl⟩
  · rw [hmain]
    have hinv := histInv_histOf k hc
    have hsub : ((histZip c k).filter
          (fun p => decide (s ≤ p.1 ∧ p.1 ≤ e))).map Prod.fst |>.Sublist
        ((histZip c k).map Prod.fst) :=
      List.Sublist.map Prod.fst (List.filter_sublist _)
    exact List.Pairwise.sublist hsub (pairwise_map_fst_zip hinv.1 hinv.2)
  · intro hes
    simp [Cache.get_range, if_pos hes]
  · intro hl
    simp [Cache.get_range, hl]
  · intro h hl hts
    simp [Cache.get_range, hl, hts]

/-- Witness for C8 on the range example of the spec. -/
theorem C8_get_range_witness :
    Inv (⟨[("a", ([1, 2, 5], [10, 20, 50]))]⟩ : Cache Nat) ∧
      ((⟨[("a", ([1, 2, 5], [10, 20, 50]))]⟩ : Cache Nat).get_range "a" 2 4 =
          (histZip (⟨[("a", ([1, 2, 5], [10, 20, 50]))]⟩ : Cache Nat) "a").filter
            (fun p => decide (2 ≤ p.1 ∧ p.1 ≤ 4)) ∧
        (((⟨[("a", ([1, 2, 5], [10, 20, 50]))]⟩ : Cache Nat).get_range "a" 2 4).map
            Prod.fst).Pairwise (· < ·) ∧
        ((4 : Int) < 2 →
          (⟨[("a", ([1, 2, 5], [10, 20, 50]))]⟩ : Cache Nat).get_range "a" 2 4 = []) ∧
        (lookupKey (⟨[("a", ([1, 2, 5], [10, 20, 50]))]⟩ : Cache Nat).entries "a" =
            none →
          (⟨[("a", ([1, 2, 5], [10, 20, 50]))]⟩ : Cache Nat).get_range "a" 2 4 = []) ∧
        (∀ h,
          lookupKey (⟨[("a", ([1, 2, 5], [10, 20, 50]))]⟩ : Cache Nat).entries "a" =
              some h →
            h.1 = [] →
            (⟨[("a", ([1, 2, 5], [10, 20, 50]))]⟩ : Cache Nat).get_range "a" 2 4 = []) ∧
        applyOp (⟨[("a", ([1, 2, 5], [10, 20, 50]))]⟩ : Cache Nat) (Op.get_range "a" 2 4) =
          ⟨[("a", ([1, 2, 5], [10, 20, 50]))]⟩) :=
  ⟨by decide, C8_get_range _ (by decide) "a" 2 4⟩

/-- C7: delete_upto removes exactly the versions with timestamp at most ts,
returns how many it removed, leaves the other keys alone, keeps the
surviving versions in order (they are the filtered suffix), returns 0 and
changes nothing on an absent key or when nothing qualifies. -/
theorem C7_delete_upto {V : Type} (c : Cache V) (hc : Inv c) (k : String) (t : Int) :
    (c.delete_upto k t).1 =
        ((histZip c k).filter (fun p => decide (p.1 ≤ t))).length ∧
      histZip (c.delete_upto k t).2 k =
        (histZip c k).filter (fun p => decide (t < p.1)) ∧
      (∀ k₂, k₂ ≠ k →
        lookupKey (c.delete_upto k t).2.entries k₂ = lookupKey c.entries k₂) ∧
      (lookupKey c.entries k = none → c.delete_upto k t = (0, c)) ∧
      ((c.delete_upto k t).1 = 0 → (c.delete_upto k t).2 = c) := by
  cases hl : lookupKey c.entries k with
  | none =>
    have hd : c.delete_upto k t = (0, c) := by simp [Cache.delete_upto, hl]
    have hz : histZip c k = [] := by simp [histZip, histOf, hl]
    refine ⟨?_, ?_, fun k₂ _ => by rw [hd], fun _ => hd, fun _ => by rw [hd]⟩
    · rw [hd, hz]
      rfl
    · rw [hd, hz]
      rfl
  | some h =>
    have hinv := Inv_lookup hc hl
    have hzip : histZip c k = h.1.zip h.2 := by simp [histZip, histOf, hl]
    have hcount := filter_le_length_eq_bisect t h.1 h.2 hinv.1 hinv.2
    have hdrop := drop_bisect_eq_filter t h.1 h.2 hinv.1
    by_cases hts : h.1 = []
    · have hd : c.delete_upto k t = (0, c) := by
        simp only [Cache.delete_upto, hl]
        rw [if_pos hts]
      have hz : histZip c k = [] := by rw [hzip, hts]; simp
      refine ⟨?_, ?_, fun k₂ _ => by rw [hd], fun _ => hd, fun _ => by rw [hd]⟩
      · rw [hd, hz]
        rfl
      · rw [hd, hz]
        rfl
    · by_cases hcut : bisect_right h.1 t = 0
      · have hd : c.delete_upto k t = (0, c) := by
          simp only [Cache.delete_upto, hl]
          rw [if_neg hts, if_pos hcut]
        refine ⟨?_, ?_, fun k₂ _ => by rw [hd], fun _ => hd, fun _ => by rw [hd]⟩
        · rw [hd, hzip, hcount, hcut]
        · rw [hd, hzip, ← hdrop, hcut, List.drop_zero]
      · have hd : c.delete_upto k t =
            (bisect_right h.1 t,
              ⟨setKey c.entries k
                (h.1.drop (bisect_right h.1 t), h.2.drop (bisect_right h.1 t))⟩) := by
          simp only [Cache.delete_upto, hl]
          rw [if_neg hts, if_neg hcut]
        refine ⟨?_, ?_, ?_, ?_, ?_⟩
        · rw [hd, hzip, hcount]
        · rw [hd, hzip, ← hdrop]
          simp only [histZip, histOf, lookupKey_setKey_self, Option.getD_some]
          rw [zip_drop]
        · intro k₂ hk₂
          rw [hd]
          exact lookupKey_setKey_ne _ _ _ _ (fun hkk => hk₂ hkk.symm)
        · intro hnone
          exact absurd hnone (by simp)
        · intro h0
          rw [hd] at h0
          exact absurd h0 hcut

/-- Witness for C7 on the retention example of the spec. -/
theorem C7_delete_upto_witness :
    Inv (⟨[("a", ([4, 5], [1, 2]))]⟩ : Cache Nat) ∧
      (((⟨[("a", ([4, 5], [1, 2]))]⟩ : Cache Nat).delete_upto "a" 4).1 =
          ((histZip (⟨[("a", ([4, 5], [1, 2]))]⟩ : Cache Nat) "a").filter
            (fun p => decide (p.1 ≤ 4))).length ∧
        histZip ((⟨[("a", ([4, 5], [1, 2]))]⟩ : Cache Nat).delete_upto "a" 4).2 "a" =
          (histZip (⟨[("a", ([4, 5], [1, 2]))]⟩ : Cache Nat) "a").filter
            (fun p => decide (4 < p.1)) ∧
        (∀ k₂, k₂ ≠ "a" →
          lookupKey ((⟨[("a", ([4, 5], [1, 2]))]⟩ : Cache Nat).delete_upto "a" 4).2.entries
              k₂ =
            lookupKey (⟨[("a", ([4, 5], [1, 2]))]⟩ : Cache Nat).entries k₂) ∧
        (lookupKey (⟨[("a", ([4, 5], [1, 2]))]⟩ : Cache Nat).entries "a" = none →
          (⟨[("a", ([4, 5], [1, 2]))]⟩ : Cache Nat).delete_upto "a" 4 =
            (0, (⟨[("a", ([4, 5], [1, 2]))]⟩ : Cache Nat))) ∧
        (((⟨[("a", ([4, 5], [1, 2]))]⟩ : Cache Nat).delete_upto "a" 4).1 = 0 →
          ((⟨[("a", ([4, 5], [1, 2]))]⟩ : Cache Nat).delete_upto "a" 4).2 =
            (⟨[("a", ([4, 5], [1, 2]))]⟩ : Cache Nat))) :=
  ⟨by decide, C7_delete_upto _ (by decide) "a" 4⟩

/-- C6: compact applies at most the two passes in fixed order on the
addressed key: the keep-last-n retention first (skipped for a missing or
negative bound or one at least the version count; a zero bound empties the
history), then the adjacent-value dedup that always keeps the first entry
and drops entries equal to the previously retained value; the call is a
no-op on an absent or empty key and never touches other keys. -/
theorem C6_compact {V : Type} [DecidableEq V] (c : Cache V) (hc : Inv c) (k : String)
    (n : Option Int) (d : Bool) :
    (lookupKey c.entries k = none → c.compact k n d = c) ∧
      (∀ h, lookupKey c.entries k = some h → h.1 = [] → c.compact k n d = c) ∧
      histZip (c.compact k n d) k = specCompactZ n d (histZip c k) ∧
      (∀ k₂, k₂ ≠ k →
        lookupKey (c.compact k n d).entries k₂ = lookupKey c.entries k₂) := by
  cases hl : lookupKey c.entries k with
  | none =>
    have hcc : c.compact k n d = c := by simp [Cache.compact, hl]
    have hz : histZip c k = [] := by simp [histZip, histOf, hl]
    refine ⟨fun _ => hcc, fun h hh => absurd hh (by simp), ?_, fun k₂ _ => by rw [hcc]⟩
    rw [hcc, hz, specCompactZ_nil]
  | some h =>
    have hinv := Inv_lookup hc hl
    have hzip : histZip c k = h.1.zip h.2 := by simp [histZip, histOf, hl]
    by_cases hts : h.1 = []
    · have hcc : c.compact k n d = c := by
        simp only [Cache.compact, hl]
        rw [if_pos hts]
      have hz : histZip c k = [] := by rw [hzip, hts]; simp
      refine ⟨fun hh => absurd hh (by simp), fun h₂ hh _ => hcc, ?_,
        fun k₂ _ => by rw [hcc]⟩
      rw [hcc, hz, specCompactZ_nil]
    · have hcc : c.compact k n d =
          ⟨setKey c.entries k (dedupIf d (trimHist n h))⟩ := by
        simp only [Cache.compact, hl]
        rw [if_neg hts]
      refine ⟨fun hh => absurd hh (by simp), ?_, ?_, ?_⟩
      · intro h₂ hh ht₂
        injection hh with hh
        rw [hh] at hts
        exact absurd ht₂ hts
      · rw [hcc, hzip]
        have htin : histInv (trimHist n h) := histInv_trimHist n hinv
        simp only [histZip, histOf, lookupKey_setKey_self, Option.getD_some]
        rw [zip_dedupIf d (trimHist n h) htin.2, zip_trimHist n h hinv.2]
        cases d <;> simp [specCompactZ]
      · intro k₂ hk₂
        rw [hcc]
        exact lookupKey_setKey_ne _ _ _ _ (fun hkk => hk₂ hkk.symm)

/-- Witness for C6 on the compaction-dedup example of the spec. -/
theorem C6_compact_witness :
    Inv (⟨[("x", ([1, 2, 3, 4, 5], [1, 1, 2, 2, 2]))]⟩ : Cache Nat) ∧
      ((lookupKey (⟨[("x", ([1, 2, 3, 4, 5], [1, 1, 2, 2, 2]))]⟩ : Cache Nat).entries
            "x" = none →
          (⟨[("x", ([1, 2, 3, 4, 5], [1, 1, 2, 2, 2]))]⟩ : Cache Nat).compact "x" none
              true =
            (⟨[("x", ([1, 2, 3, 4, 5], [1, 1, 2, 2, 2]))]⟩ : Cache Nat)) ∧
        (∀ h,
          lookupKey (⟨[("x", ([1, 2, 3, 4, 5], [1, 1, 2, 2, 2]))]⟩ : Cache Nat).entries
              "x" = some h →
            h.1 = [] →
            (⟨[("x", ([1, 2, 3, 4, 5], [1, 1, 2, 2, 2]))]⟩ : Cache Nat).compact "x" none
                true =
              (⟨[("x", ([1, 2, 3, 4, 5], [1, 1, 2, 2, 2]))]⟩ : Cache Nat)) ∧
        histZip
            ((⟨[("x", ([1, 2, 3, 4, 5], [1, 1, 2, 2, 2]))]⟩ : Cache Nat).compact "x"
              none true) "x" =
          specCompactZ none true
            (histZip (⟨[("x", ([1, 2, 3, 4, 5], [1, 1, 2, 2, 2]))]⟩ : Cache Nat) "x") ∧
        (∀ k₂, k₂ ≠ "x" →
          lookupKey
              ((⟨[("x", ([1, 2, 3, 4, 5], [1, 1, 2, 2, 2]))]⟩ : Cache Nat).compact "x"
                none true).entries k₂ =
            lookupKey (⟨[("x", ([1, 2, 3, 4, 5], [1, 1, 2, 2, 2]))]⟩ : Cache Nat).entries
              k₂)) :=
  ⟨by decide, C6_compact _ (by decide) "x" none true⟩

/-- C10: a dedup-only compaction never changes the answer of any point
read: every dropped entry is covered by the first entry of its run, which
carries the same value. -/
theorem C10_dedup_invisible {V : Type} [DecidableEq V] (c : Cache V) (hc : Inv c)
    (t : Int) (k : String) :
    (c.compact k none true).get t k = c.get t k := by
  have hc₂ := Inv_compact k none true hc
  rw [get_eq_specGetZ _ hc₂ t k, get_eq_specGetZ c hc t k]
  cases hl : lookupKey c.entries k with
  | none =>
    have hcc : c.compact k none true = c := by simp [Cache.compact, hl]
    rw [hcc]
  | some h =>
    have hinv := Inv_lookup hc hl
    have hzip : histZip c k = h.1.zip h.2 := by simp [histZip, histOf, hl]
    by_cases hts : h.1 = []
    · have hcc : c.compact k none true = c := by
        simp only [Cache.compact, hl]
        rw [if_pos hts]
      rw [hcc]
    · have hcc : c.compact k none true =
          ⟨setKey c.entries k (dedupIf true (trimHist none h))⟩ := by
        simp only [Cache.compact, hl]
        rw [if_neg hts]
      have hz₂ : histZip (c.compact k none true) k = specDedup (h.1.zip h.2) := by
        rw [hcc]
        simp only [histZip, histOf, lookupKey_setKey_self, Option.getD_some]
        rw [zip_dedupIf true (trimHist none h) (histInv_trimHist none hinv).2]
        simp only [if_pos rfl]
        rfl
      rw [hz₂, hzip]
      exact specGetZ_specDedup t (h.1.zip h.2) (pairwise_map_fst_zip hinv.1 hinv.2)

/-- Witness for C10 on a history with duplicate adjacent values. -/
theorem C10_dedup_invisible_witness :
    Inv (⟨[("x", ([1, 2, 3, 4, 5], [1, 1, 2, 2, 2]))]⟩ : Cache Nat) ∧
      ((⟨[("x", ([1, 2, 3, 4, 5], [1, 1, 2, 2, 2]))]⟩ : Cache Nat).compact "x" none
            true).get 4 "x" =
        (⟨[("x", ([1, 2, 3, 4, 5], [1, 1, 2, 2, 2]))]⟩ : Cache Nat).get 4 "x" :=
  ⟨by decide, C10_dedup_invisible _ (by decide) 4 "x"⟩

/-! Per-key projection of sequential inserts, and permutation invariance. -/

section Projection

variable {V : Type}

theorem keyPairs_cons (e : Int × String × V) (rest : List (Int × String × V))
    (k : String) :
    keyPairs (e :: rest) k =
      if e.2.1 = k then (e.1, e.2.2) :: keyPairs rest k else keyPairs rest k := by
  by_cases he : e.2.1 = k <;> simp [keyPairs, List.filterMap_cons, he]

theorem lookup_foldl_insert [DecidableEq V] (es : List (Int × String × V)) (c : Cache V)
    (k : String) :
    lookupKey ((es.foldl (fun c e => c.insert e.1 e.2.1 e.2.2) c).entries) k =
      if keyPairs es k = [] then lookupKey c.entries k
      else some ((keyPairs es k).foldl
        (fun a p => insertHist p.1 p.2 a.1 a.2) (histOf c k)) := by
  induction es generalizing c with
  | nil =>
    simp only [List.foldl_nil]
    rw [if_pos (show keyPairs ([] : List (Int × String × V)) k = [] from rfl)]
  | cons e rest ih =>
    simp only [List.foldl_cons]
    rw [ih (c.insert e.1 e.2.1 e.2.2), keyPairs_cons]
    by_cases he : e.2.1 = k
    · rw [if_pos he]
      have hlk : lookupKey (c.insert e.1 e.2.1 e.2.2).entries k =
          some (insertHist e.1 e.2.2 (histOf c k).1 (histOf c k).2) := by
        rw [← he]
        exact lookup_insert_self c e.1 e.2.1 e.2.2
      have hho : histOf (c.insert e.1 e.2.1 e.2.2) k =
          insertHist e.1 e.2.2 (histOf c k).1 (histOf c k).2 := by
        rw [histOf, hlk]
        rfl
      by_cases hkp : keyPairs rest k = []
      · rw [if_pos hkp, hkp, hlk, if_neg (List.cons_ne_nil _ _)]
        rfl
      · rw [if_neg hkp, if_neg (List.cons_ne_nil _ _), hho]
        rfl
    · rw [if_neg he]
      have hlk : lookupKey (c.insert e.1 e.2.1 e.2.2).entries k =
          lookupKey c.entries k := lookup_insert_ne c e.1 e.2.1 e.2.2 k he
      have hho : histOf (c.insert e.1 e.2.1 e.2.2) k = histOf c k := by
        rw [histOf, hlk]
        rfl
      rw [hlk, hho]

theorem foldl_perm_of_comm {α β : Type} (f : β → α → β) :
    ∀ {l₁ l₂ : List α}, l₁.Perm l₂ →
      (∀ a ∈ l₁, ∀ b ∈ l₁, ∀ s, f (f s a) b = f (f s b) a) →
      ∀ s, l₁.foldl f s = l₂.foldl f s := by
  intro l₁ l₂ hp
  induction hp with
  | nil =>
    intro _ _
    rfl
  | cons x hp ih =>
    intro hc s
    simp only [List.foldl_cons]
    exact ih
      (fun a ha b hb s₂ => hc a (List.mem_cons_of_mem _ ha) b (List.mem_cons_of_mem _ hb) s₂)
      (f s x)
  | swap x y l =>
    intro hc s
    simp only [List.foldl_cons]
    rw [hc y (by simp) x (by simp) s]
  | trans h₁ h₂ ih₁ ih₂ =>
    intro hc s
    rw [ih₁ hc s,
      ih₂ (fun a ha b hb s₂ => hc a (h₁.mem_iff.mpr ha) b (h₁.mem_iff.mpr hb) s₂) s]

theorem mem_keyPairs {es : List (Int × String × V)} {k : String} {q : Int × V}
    (hq : q ∈ keyPairs es k) : ∃ f ∈ es, f.2.1 = k ∧ q = (f.1, f.2.2) := by
  obtain ⟨f, hf, hfq⟩ := List.mem_filterMap.mp hq
  by_cases he : f.2.1 = k
  · rw [if_pos he] at hfq
    exact ⟨f, hf, he, (Option.some.injEq _ _).mp hfq.symm⟩
  · rw [if_neg he] at hfq
    cases hfq

theorem pairwise_keyPairs {es : List (Int × String × V)} (k : String)
    (hdist : es.Pairwise (fun e f => e.2.1 = f.2.1 → e.1 ≠ f.1)) :
    (keyPairs es k).Pairwise (fun p q => p.1 ≠ q.1) := by
  induction es with
  | nil => simp [keyPairs]
  | cons e rest ih =>
    have hd := List.pairwise_cons.mp hdist
    rw [keyPairs_cons]
    by_cases he : e.2.1 = k
    · rw [if_pos he]
      refine List.Pairwise.cons ?_ (ih hd.2)
      intro q hq
      obtain ⟨f, hf, hfk, rfl⟩ := mem_keyPairs hq
      exact hd.1 f hf (he.trans hfk.symm)
    · rw [if_neg he]
      exact ih hd.2

theorem insZ_step_comm {l : List (Int × V)}
    (hl : l.Pairwise (fun p q => p.1 ≠ q.1)) :
    ∀ a ∈ l, ∀ b ∈ l, ∀ s : List (Int × V),
      insZ b.1 b.2 (insZ a.1 a.2 s) = insZ a.1 a.2 (insZ b.1 b.2 s) := by
  intro a ha b hb s
  by_cases hab : a = b
  · rw [hab]
  · have hsym : Symmetric (fun p q : Int × V => p.1 ≠ q.1) := fun p q hpq => hpq.symm
    have hne : a.1 ≠ b.1 := List.Pairwise.forall hsym hl ha hb hab
    exact insZ_comm b.2 a.2 s (Ne.symm hne)

theorem foldl_insertHist_perm {p₁ p₂ : List (Int × V)} (hperm : p₁.Perm p₂)
    (hdist : p₁.Pairwise (fun p q => p.1 ≠ q.1)) {h : Hist V} (hh : histInv h) :
    p₁.foldl (fun a p => insertHist p.1 p.2 a.1 a.2) h =
      p₂.foldl (fun a p => insertHist p.1 p.2 a.1 a.2) h := by
  obtain ⟨ts, vs⟩ := h
  rw [foldl_insertHist_eq p₁ ts vs hh.1 hh.2, foldl_insertHist_eq p₂ ts vs hh.1 hh.2]
  rw [foldl_perm_of_comm _ hperm (insZ_step_comm hdist) (ts.zip vs)]

end Projection

/-! Key materialization order of sequential inserts and of insert_many. -/

section KeyOrder

variable {V : Type}

theorem newKeys_congr (s₁ s₂ ks : List String)
    (h : ∀ x, x ∈ s₁ ↔ x ∈ s₂) : newKeys s₁ ks = newKeys s₂ ks := by
  induction ks generalizing s₁ s₂ with
  | nil => rfl
  | cons k rest ih =>
    by_cases hk : k ∈ s₁
    · rw [newKeys, if_pos hk, newKeys, if_pos ((h k).mp hk)]
      exact ih s₁ s₂ h
    · rw [newKeys, if_neg hk, newKeys, if_neg (fun h₂ => hk ((h k).mpr h₂))]
      rw [ih (k :: s₁) (k :: s₂) (fun x => by simp [h x])]

theorem map_fst_insert (c : Cache V) (t : Int) (k : String) (v : V) :
    (c.insert t k v).entries.map Prod.fst =
      if k ∈ c.entries.map Prod.fst then c.entries.map Prod.fst
      else c.entries.map Prod.fst ++ [k] := by
  by_cases hk : k ∈ c.entries.map Prod.fst
  · rw [if_pos hk]
    exact map_fst_setKey_mem _ hk
  · rw [if_neg hk]
    exact map_fst_setKey_not_mem _ hk

theorem map_fst_applyBucket (c : Cache V) (k : String) (items : List (Int × V)) :
    (applyBucket c k items).entries.map Prod.fst =
      if k ∈ c.entries.map Prod.fst then c.entries.map Prod.fst
      else c.entries.map Prod.fst ++ [k] := by
  by_cases hk : k ∈ c.entries.map Prod.fst
  · rw [if_pos hk]
    exact map_fst_setKey_mem _ hk
  · rw [if_neg hk]
    exact map_fst_setKey_not_mem _ hk

theorem map_fst_foldl_insert (es : List (Int × String × V)) (c : Cache V) :
    (es.foldl (fun c e => c.insert e.1 e.2.1 e.2.2) c).entries.map Prod.fst =
      c.entries.map Prod.fst ++
        newKeys (c.entries.map Prod.fst) (es.map (fun e => e.2.1)) := by
  induction es generalizing c with
  | nil => simp [newKeys]
  | cons e rest ih =>
    simp only [List.foldl_cons, List.map_cons]
    rw [ih (c.insert e.1 e.2.1 e.2.2), map_fst_insert]
    by_cases hk : e.2.1 ∈ c.entries.map Prod.fst
    · rw [if_pos hk, newKeys, if_pos hk]
    · rw [if_neg hk, newKeys, if_neg hk]
      rw [newKeys_congr (c.entries.map Prod.fst ++ [e.2.1])
        (e.2.1 :: c.entries.map Prod.fst) (rest.map (fun e => e.2.1))
        (fun x => by simp [List.mem_append, or_comm])]
      simp [List.append_assoc]

theorem map_fst_bucketAdd (bs : List (String × List (Int × V))) (k : String)
    (p : Int × V) :
    (bucketAdd bs k p).map Prod.fst =
      if k ∈ bs.map Prod.fst then bs.map Prod.fst else bs.map Prod.fst ++ [k] := by
  induction bs with
  | nil => simp [bucketAdd]
  | cons b rest ih =>
    obtain ⟨k', xs⟩ := b
    by_cases hk : k' = k
    · simp [bucketAdd, hk]
    · simp only [bucketAdd, if_neg hk, List.map_cons, ih, List.mem_cons]
      by_cases hmem : k ∈ rest.map Prod.fst
      · rw [if_pos hmem, if_pos (Or.inr hmem)]
      · rw [if_neg hmem, if_neg (by rintro (h | h); exact hk h.symm; exact hmem h)]
        simp

theorem map_fst_buckets_aux (es : List (Int × String × V))
    (acc : List (String × List (Int × V))) :
    (es.foldl (fun bs e => bucketAdd bs e.2.1 (e.1, e.2.2)) acc).map Prod.fst =
      acc.map Prod.fst ++ newKeys (acc.map Prod.fst) (es.map (fun e => e.2.1)) := by
  induction es generalizing acc with
  | nil => simp [newKeys]
  | cons e rest ih =>
    simp only [List.foldl_cons, List.map_cons]
    rw [ih (bucketAdd acc e.2.1 (e.1, e.2.2)), map_fst_bucketAdd]
    by_cases hk : e.2.1 ∈ acc.map Prod.fst
    · rw [if_pos hk, newKeys, if_pos hk]
    · rw [if_neg hk, newKeys, if_neg hk]
      rw [newKeys_congr (acc.map Prod.fst ++ [e.2.1])
        (e.2.1 :: acc.map Prod.fst) (rest.map (fun e => e.2.1))
        (fun x => by simp [List.mem_append, or_comm])]
      simp [List.append_assoc]

theorem map_fst_buckets (es : List (Int × String × V)) :
    (buckets es).map Prod.fst = newKeys [] (es.map (fun e => e.2.1)) := by
  rw [buckets, map_fst_buckets_aux]
  rfl

theorem map_fst_foldl_applyBucket (bs : List (String × List (Int × V))) (c : Cache V) :
    ((bs.foldl (fun c kb => applyBucket c kb.1 (sortByTs kb.2)) c).entries).map
        Prod.fst =
      c.entries.map Prod.fst ++ newKeys (c.entries.map Prod.fst) (bs.map Prod.fst) := by
  induction bs generalizing c with
  | nil => simp [newKeys]
  | cons kb bs' ih =>
    simp only [List.foldl_cons, List.map_cons]
    rw [ih (applyBucket c kb.1 (sortByTs kb.2)), map_fst_applyBucket]
    by_cases hk : kb.1 ∈ c.entries.map Prod.fst
    · rw [if_pos hk, newKeys, if_pos hk]
    · rw [if_neg hk, newKeys, if_neg hk]
      rw [newKeys_congr (c.entries.map Prod.fst ++ [kb.1])
        (kb.1 :: c.entries.map Prod.fst) (bs'.map Prod.fst)
        (fun x => by simp [List.mem_append, or_comm])]
      simp [List.append_assoc]

theorem newKeys_newKeys (ks : List String) :
    ∀ (S T : List String), (∀ x ∈ T, x ∈ S) →
      newKeys S (newKeys T ks) = newKeys S ks := by
  induction ks with
  | nil =>
    intro S T _
    rfl
  | cons k rest ih =>
    intro S T hsub
    by_cases hkT : k ∈ T
    · rw [newKeys, if_pos hkT, newKeys, if_pos (hsub k hkT)]
      exact ih S T hsub
    · rw [newKeys, if_neg hkT]
      by_cases hkS : k ∈ S
      · rw [newKeys, if_pos hkS, newKeys, if_pos hkS]
        exact ih S (k :: T) (by
          intro x hx
          rcases List.mem_cons.mp hx with rfl | hx
          · exact hkS
          · exact hsub x hx)
      · rw [newKeys, if_neg hkS, newKeys, if_neg hkS]
        rw [ih (k :: S) (k :: T) (by
          intro x hx
          rcases List.mem_cons.mp hx with rfl | hx
          · exact List.mem_cons_self _ _
          · exact List.mem_cons_of_mem _ (hsub x hx))]

end KeyOrder

/-! The buckets of insert_many and their effect, key by key. -/

section Buckets

variable {V : Type}

theorem lookup_bucketAdd_self (bs : List (String × List (Int × V))) (k : String)
    (p : Int × V) :
    lookupKey (bucketAdd bs k p) k = some ((lookupKey bs k).getD [] ++ [p]) := by
  induction bs with
  | nil => simp [bucketAdd, lookupKey]
  | cons b rest ih =>
    obtain ⟨k', xs⟩ := b
    by_cases hk : k' = k
    · simp [bucketAdd, hk, lookupKey]
    · simp [bucketAdd, hk, lookupKey, ih]

theorem lookup_bucketAdd_ne (bs : List (String × List (Int × V))) (k k₂ : String)
    (p : Int × V) (h : k ≠ k₂) : lookupKey (bucketAdd bs k p) k₂ = lookupKey bs k₂ := by
  induction bs with
  | nil => simp [bucketAdd, lookupKey, h]
  | cons b rest ih =>
    obtain ⟨k', xs⟩ := b
    by_cases hk : k' = k
    · subst hk
      simp [bucketAdd, lookupKey, h, ih]
    · simp only [bucketAdd, if_neg hk, lookupKey]
      by_cases hk2 : k' = k₂ <;> simp [hk2, ih]

theorem lookup_buckets_aux [DecidableEq V] (es : List (Int × String × V))
    (acc : List (String × List (Int × V))) (k : String) :
    lookupKey (es.foldl (fun bs e => bucketAdd bs e.2.1 (e.1, e.2.2)) acc) k =
      match lookupKey acc k with
      | some xs => some (xs ++ keyPairs es k)
      | none => if keyPairs es k = [] then none else some (keyPairs es k) := by
  induction es generalizing acc with
  | nil =>
    simp only [List.foldl_nil]
    cases hacc : lookupKey acc k with
    | none => rfl
    | some xs => simp [keyPairs]
  | cons e rest ih =>
    simp only [List.foldl_cons]
    rw [ih (bucketAdd acc e.2.1 (e.1, e.2.2)), keyPairs_cons]
    by_cases he : e.2.1 = k
    · rw [if_pos he]
      have hba : lookupKey (bucketAdd acc e.2.1 (e.1, e.2.2)) k =
          some ((lookupKey acc k).getD [] ++ [(e.1, e.2.2)]) := by
        rw [← he]
        exact lookup_bucketAdd_self acc e.2.1 (e.1, e.2.2)
      rw [hba]
      cases hacc : lookupKey acc k with
      | none => simp
      | some xs => simp [List.append_assoc]
    · rw [if_neg he]
      rw [lookup_bucketAdd_ne acc e.2.1 k (e.1, e.2.2) he]

theorem lookup_buckets [DecidableEq V] (es : List (Int × String × V)) (k : String) :
    lookupKey (buckets es) k =
      if keyPairs es k = [] then none else some (keyPairs es k) := by
  rw [buckets, lookup_buckets_aux]
  rfl

theorem nodup_map_fst_bucketAdd_aux (es : List (Int × String × V))
    (acc : List (String × List (Int × V))) (hnd : (acc.map Prod.fst).Nodup) :
    ((es.foldl (fun bs e => bucketAdd bs e.2.1 (e.1, e.2.2)) acc).map Prod.fst).Nodup := by
  induction es generalizing acc with
  | nil => exact hnd
  | cons e rest ih =>
    simp only [List.foldl_cons]
    apply ih
    rw [map_fst_bucketAdd]
    by_cases hk : e.2.1 ∈ acc.map Prod.fst
    · rw [if_pos hk]
      exact hnd
    · rw [if_neg hk]
      simp only [List.nodup_append, List.nodup_cons, List.not_mem_nil, not_false_iff,
        List.nodup_nil, and_true, true_and]
      refine ⟨hnd, ?_⟩
      intro x hx
      simp only [List.mem_singleton]
      intro hxk
      exact hk (hxk ▸ hx)

theorem nodup_map_fst_buckets (es : List (Int × String × V)) :
    ((buckets es).map Prod.fst).Nodup :=
  nodup_map_fst_bucketAdd_aux es [] (by simp)

theorem lookup_applyBucket_self (c : Cache V) (k : String) (items : List (Int × V)) :
    lookupKey (applyBucket c k items).entries k =
      some (items.foldl (fun a p => insertHist p.1 p.2 a.1 a.2) (histOf c k)) := by
  simp [applyBucket, histOf]

theorem lookup_applyBucket_ne (c : Cache V) (k k₂ : String) (items : List (Int × V))
    (h : k ≠ k₂) :
    lookupKey (applyBucket c k items).entries k₂ = lookupKey c.entries k₂ := by
  simp [applyBucket, lookupKey_setKey_ne _ _ _ _ h]

theorem lookup_foldl_applyBucket_not_mem (bs : List (String × List (Int × V)))
    (c : Cache V) (k : String) (hk : k ∉ bs.map Prod.fst) :
    lookupKey ((bs.foldl (fun c kb => applyBucket c kb.1 (sortByTs kb.2)) c).entries) k =
      lookupKey c.entries k := by
  induction bs generalizing c with
  | nil => rfl
  | cons kb bs' ih =>
    simp only [List.map_cons, List.mem_cons] at hk
    push_neg at hk
    simp only [List.foldl_cons]
    rw [ih (applyBucket c kb.1 (sortByTs kb.2)) hk.2]
    exact lookup_applyBucket_ne c kb.1 k (sortByTs kb.2) (fun h => hk.1 h.symm)

theorem lookup_foldl_applyBucket (bs : List (String × List (Int × V)))
    (hnd : (bs.map Prod.fst).Nodup) (c : Cache V) (k : String) :
    lookupKey ((bs.foldl (fun c kb => applyBucket c kb.1 (sortByTs kb.2)) c).entries) k =
      match lookupKey bs k with
      | none => lookupKey c.entries k
      | some items =>
        some ((sortByTs items).foldl
          (fun a p => insertHist p.1 p.2 a.1 a.2) (histOf c k)) := by
  induction bs generalizing c with
  | nil => rfl
  | cons kb bs' ih =>
    obtain ⟨k₀, items⟩ := kb
    simp only [List.map_cons, List.nodup_cons] at hnd
    simp only [List.foldl_cons]
    by_cases hk : k₀ = k
    · subst hk
      rw [lookupKey_cons, if_pos rfl]
      rw [lookup_foldl_applyBucket_not_mem bs' _ k₀ hnd.1]
      exact lookup_applyBucket_self c k₀ (sortByTs items)
    · rw [lookupKey_cons, if_neg hk]
      rw [ih hnd.2 (applyBucket c k₀ (sortByTs items))]
      have hlk : lookupKey (applyBucket c k₀ (sortByTs items)).entries k =
          lookupKey c.entries k := lookup_applyBucket_ne c k₀ k (sortByTs items) hk
      have hho : histOf (applyBucket c k₀ (sortByTs items)) k = histOf c k := by
        rw [histOf, hlk]
        rfl
      cases hbs : lookupKey bs' k with
      | none => rw [hlk]
      | some items₂ => rw [hho]

theorem foldl_insertHist_sortByTs (ps : List (Int × V)) {h : Hist V}
    (hh : histInv h) :
    (sortByTs ps).foldl (fun a p => insertHist p.1 p.2 a.1 a.2) h =
      ps.foldl (fun a p => insertHist p.1 p.2 a.1 a.2) h := by
  obtain ⟨ts, vs⟩ := h
  rw [foldl_insertHist_eq (sortByTs ps) ts vs hh.1 hh.2,
    foldl_insertHist_eq ps ts vs hh.1 hh.2, foldl_insZ_sortByTs]

end Buckets

/-- C3: insert_many produces exactly the store state of the corresponding
sequential inserts in input order: same keys in the same materialization
order, and the same history for every key (so for duplicate (key, timestamp)
pairs in the batch, the later entry of the input order wins, as it does
sequentially). -/
theorem C3_insert_many_eq_foldl_insert {V : Type} [DecidableEq V] (c : Cache V)
    (hc : Inv c) (es : List (Int × String × V)) :
    c.insert_many es = es.foldl (fun c e => c.insert e.1 e.2.1 e.2.2) c := by
  have hseq : Inv (es.foldl (fun c e => c.insert e.1 e.2.1 e.2.2) c) := by
    induction es generalizing c with
    | nil => exact hc
    | cons e rest ih => exact ih (c.insert e.1 e.2.1 e.2.2) (Inv_insert _ _ _ hc)
  apply congrArg Cache.mk
  apply assoc_ext
  · -- same key sequence
    rw [map_fst_foldl_applyBucket, map_fst_foldl_insert,
      map_fst_buckets, newKeys_newKeys _ _ [] (by simp)]
  · -- no duplicate keys on the insert_many side
    have hnd := (Inv_insert_many es hc).1
    unfold Cache.insert_many at hnd
    exact hnd
  · -- same history for every key
    intro k
    rw [lookup_foldl_applyBucket (buckets es)
      (nodup_map_fst_buckets es) c k, lookup_buckets, lookup_foldl_insert]
    by_cases hkp : keyPairs es k = []
    · rw [if_pos hkp, if_pos hkp]
    · rw [if_neg hkp, if_neg hkp]
      show some ((sortByTs (keyPairs es k)).foldl
          (fun a p => insertHist p.1 p.2 a.1 a.2) (histOf c k)) = _
      rw [foldl_insertHist_sortByTs (keyPairs es k) (histInv_histOf k hc)]

/-- Witness for C3 on a batch with two keys and a duplicate timestamp. -/
theorem C3_insert_many_witness :
    Inv (Cache.emptyCache : Cache Nat) ∧
      (Cache.emptyCache : Cache Nat).insert_many
          [(3, "a", 1), (1, "b", 2), (3, "a", 9), (2, "a", 5)] =
        [((3 : Int), "a", (1 : Nat)), (1, "b", 2), (3, "a", 9), (2, "a", 5)].foldl
          (fun c e => c.insert e.1 e.2.1 e.2.2) Cache.emptyCache :=
  ⟨by decide,
    C3_insert_many_eq_foldl_insert Cache.emptyCache (by decide)
      [(3, "a", 1), (1, "b", 2), (3, "a", 9), (2, "a", 5)]⟩

/-- C4: starting from the empty store, inserting a batch with pairwise
distinct (key, timestamp) pairs in any permuted order yields, key by key,
exactly the history obtained by inserting the batch sorted by timestamp. -/
theorem C4_out_of_order {V : Type} [DecidableEq V] (es es₂ : List (Int × String × V))
    (hdist : es.Pairwise (fun e f => e.2.1 = f.2.1 → e.1 ≠ f.1))
    (hperm : es₂.Perm es) (k : String) :
    lookupKey ((es₂.foldl (fun c e => c.insert e.1 e.2.1 e.2.2)
        Cache.emptyCache).entries) k =
      lookupKey (((sortAllByTs es).foldl (fun c e => c.insert e.1 e.2.1 e.2.2)
        Cache.emptyCache).entries) k := by
  have hperm₂ : (sortAllByTs es).Perm es := List.perm_insertionSort _ es
  have hp : es₂.Perm (sortAllByTs es) := hperm.trans hperm₂.symm
  have hdist₂ : es₂.Pairwise (fun e f => e.2.1 = f.2.1 → e.1 ≠ f.1) :=
    hdist.perm hperm.symm (fun hef hfe => (hef hfe.symm).symm)
  rw [lookup_foldl_insert, lookup_foldl_insert]
  have hkp : (keyPairs es₂ k).Perm (keyPairs (sortAllByTs es) k) := hp.filterMap _
  by_cases h2 : keyPairs es₂ k = []
  · have h3 : keyPairs (sortAllByTs es) k = [] := by
      have hkp₂ := hkp.symm
      rw [h2] at hkp₂
      exact hkp₂.eq_nil
    rw [if_pos h2, if_pos h3]
  · have h3 : keyPairs (sortAllByTs es) k ≠ [] := by
      intro h3
      apply h2
      have hkp₂ := hkp
      rw [h3] at hkp₂
      exact hkp₂.eq_nil
    rw [if_neg h2, if_neg h3]
    exact congrArg some
      (foldl_insertHist_perm hkp (pairwise_keyPairs k hdist₂)
        (histInv_histOf k Inv_emptyCache))

/-- Witness for C4 on a two-key out-of-order batch. -/
theorem C4_out_of_order_witness :
    ([((5 : Int), "a", (1 : Nat)), (3, "a", 2), (4, "b", 7)].Pairwise
        (fun e f => e.2.1 = f.2.1 → e.1 ≠ f.1)) ∧
      ([((3 : Int), "a", (2 : Nat)), (4, "b", 7), (5, "a", 1)].Perm
        [(5, "a", 1), (3, "a", 2), (4, "b", 7)]) ∧
      lookupKey (([((3 : Int), "a", (2 : Nat)), (4, "b", 7), (5, "a", 1)].foldl
          (fun c e => c.insert e.1 e.2.1 e.2.2) Cache.emptyCache).entries) "a" =
        lookupKey
          (((sortAllByTs [((5 : Int), "a", (1 : Nat)), (3, "a", 2), (4, "b", 7)]).foldl
            (fun c e => c.insert e.1 e.2.1 e.2.2) Cache.emptyCache).entries) "a" :=
  ⟨by decide, by decide,
    C4_out_of_order [(5, "a", 1), (3, "a", 2), (4, "b", 7)]
      [(3, "a", 2), (4, "b", 7), (5, "a", 1)] (by decide) (by decide) "a"⟩

/-- Witness for C5 at a concrete store and timestamp. -/
theorem C5_overwrite_witness :
    Inv (Cache.emptyCache : Cache Nat) ∧
      (((Cache.emptyCache : Cache Nat).insert 7 "k" 1).insert 7 "k" 2).get 7 "k" =
          some 2 ∧
        (histOf (((Cache.emptyCache : Cache Nat).insert 7 "k" 1).insert 7 "k" 2)
            "k").1.length ≤
          (histOf (Cache.emptyCache : Cache Nat) "k").1.length + 1 :=
  ⟨by decide, C5_overwrite Cache.emptyCache (by decide) 7 "k" 1 2⟩

end KVCache
